import Mathlib

/-!
Verification of the bookmark-organizer reorganization engine.

This file gives a shallow embedding, in Lean 4, of the core subsystems of the
bookmark organizer:

* the categorization normalizer `normalizeCategorizationOutput`
  (src/newtab/services/aiService.ts, lines 120-164),
* the response sanitizer `extractJsonObject`
  (src/newtab/services/aiService.ts, lines 53-116),
* the apply/undo flow of `SessionsTab` (snapshot, clear, recreate;
  src/newtab/components/SessionsTab.tsx, lines 473-658),
* the undo/redo stack of the `useUndoRedo` hook.

JavaScript objects that arise from `JSON.parse` are modelled as
insertion-ordered association lists (`List (String × _)`); `Object.entries`
enumerates such a list in order, and property assignment `o[k] = v` either
updates the value at the existing position of `k` or appends a fresh key at
the end (`setKey` below).  JSON values are modelled by the inductive `JsonVal`
covering the JSON fragment without numeric literals (the engine's mappings
are string-valued; a numeric leaf plays the same role as the other
non-string, non-object leaves `bool`/`null` in every function modelled here).
Strings are modelled as `List Char` where character-level scanning matters.
-/

namespace BookmarkOrg

/-- A JSON-like value as produced by `JSON.parse` (numeric literals omitted;
see the module comment). Objects and the entry lists inside them keep
insertion order. -/
inductive JsonVal where
  | str  : String → JsonVal
  | bool : Bool → JsonVal
  | null : JsonVal
  | arr  : List JsonVal → JsonVal
  | obj  : List (String × JsonVal) → JsonVal
deriving Repr

/-- A bookmark as fed to the categorizer: (title, url). -/
abbrev Bookmark := String × String

/-- A category's contents: title → url, insertion-ordered, as a JS object. -/
abbrev CatMap := List (String × String)

/-- The normalized categorization result: category name → (title → url),
insertion-ordered, as a JS object of objects. -/
abbrev CategoryMapping := List (String × CatMap)

/-- JavaScript property assignment `o[k] = v` on an insertion-ordered object:
if the key is present its value is updated in place (position kept),
otherwise the pair is appended at the end. -/
def setKey {α : Type} (m : List (String × α)) (k : String) (v : α) :
    List (String × α) :=
  if (m.map Prod.fst).contains k then
    m.map (fun p => if p.1 = k then (k, v) else p)
  else m ++ [(k, v)]

/-- The inner `Object.entries(mapping).filter(...).reduce(...)` of
`normalizeCategorizationOutput`: keep only entries whose value is a string
(keys of a JS object are always strings), building the filtered object by
repeated assignment. -/
def validMapOf (m : List (String × JsonVal)) : CatMap :=
  m.foldl
    (fun acc p =>
      match p.2 with
      | JsonVal.str u => setKey acc p.1 u
      | _ => acc)
    []

/-- First phase of `normalizeCategorizationOutput`: accept only a value
shaped `Category → (Title → URL)`.  A non-object candidate (or an array)
contributes nothing; a category whose value is not an object is ignored; a
category whose filtered map is empty is dropped. -/
def acceptCandidate : JsonVal → CategoryMapping
  | JsonVal.obj entries =>
      entries.foldl
        (fun result p =>
          match p.2 with
          | JsonVal.obj m =>
              let vm := validMapOf m
              if vm.isEmpty then result else setKey result p.1 vm
          | _ => result)
        []
  | _ => []

/-- Second phase: `if (!result['Other']) result['Other'] = {}`.  A present
value is always an object, hence truthy, so only key absence matters. -/
def ensureOther (r : CategoryMapping) : CategoryMapping :=
  if (r.map Prod.fst).contains "Other" then r else r ++ [("Other", [])]

/-- All entries (title, url) across all categories, in order. -/
def entriesOf (r : CategoryMapping) : List (String × String) :=
  (r.map Prod.snd).flatten

/-- The `presentByUrl` set: urls of all entries, skipping falsy (empty)
urls, mirroring `if (url) presentByUrl.add(url)`. -/
def presentUrls (r : CategoryMapping) : List String :=
  (entriesOf r).filterMap (fun e => if e.2 = "" then none else some e.2)

/-- The `presentByTitle` set: titles of all entries, skipping falsy (empty)
titles, mirroring `if (title) presentByTitle.add(title)`. -/
def presentTitles (r : CategoryMapping) : List String :=
  (entriesOf r).filterMap (fun e => if e.1 = "" then none else some e.1)

/-- One iteration of the missing-bookmark loop: skip `b` when it is matched
by the (fixed) presence sets, otherwise perform
`result['Other'][b.title] = b.url`. -/
def amStep (urls titles : List String) (res : CategoryMapping) (b : Bookmark) :
    CategoryMapping :=
  if urls.contains b.2 || titles.contains b.1 then res
  else res.map (fun p => if p.1 = "Other" then (p.1, setKey p.2 b.1 b.2) else p)

/-- Third phase: append every input bookmark matched neither by url nor by
title to the `Other` category.  The presence sets are computed once, before
the loop, exactly as in the source. -/
def addMissing (r : CategoryMapping) (bs : List Bookmark) : CategoryMapping :=
  bs.foldl (amStep (presentUrls r) (presentTitles r)) r

/-- `normalizeCategorizationOutput(output, bookmarks)` from
src/newtab/services/aiService.ts lines 120-164. -/
def normalizeCategorizationOutput (output : JsonVal) (bookmarks : List Bookmark) :
    CategoryMapping :=
  addMissing (ensureOther (acceptCandidate output)) bookmarks

/-- Re-read a normalized mapping as the JS value it is, for feeding the
normalizer its own output (the `Record` returned by one call is an ordinary
object when passed back in). -/
def mappingToJson (r : CategoryMapping) : JsonVal :=
  JsonVal.obj (r.map (fun c => (c.1, JsonVal.obj (c.2.map (fun e => (e.1, JsonVal.str e.2))))))

/-- Number of times the exact (title, url) pair `b` occurs across all
categories of `r`. -/
def occTotal (r : CategoryMapping) (b : Bookmark) : Nat :=
  (entriesOf r).count b

/-- The coverage property claimed for the normalizer: every input bookmark
occurs, as an exact (title, url) pair, exactly once across all categories. -/
def exactlyOnceCoverage (r : CategoryMapping) (bs : List Bookmark) : Prop :=
  ∀ b ∈ bs, occTotal r b = 1

/-- Bookmark `b` is matched by some entry of `r`: an entry carries `b`'s url,
or an entry carries `b`'s title. -/
def matchedIn (r : CategoryMapping) (b : Bookmark) : Prop :=
  ∃ e ∈ entriesOf r, e.2 = b.2 ∨ e.1 = b.1

/-- The growth of the `Other` category's map during the missing-bookmark
loop of `addMissing`, viewed on its own: the same guarded assignment
`result['Other'][b.title] = b.url`, restricted to the Other map. -/
def gOther (u t : List String) (bs : List Bookmark) (m : CatMap) : CatMap :=
  bs.foldl
    (fun m b => if u.contains b.2 || t.contains b.1 then m else setKey m b.1 b.2) m

/-! ## Bookmark trees, snapshots, and the apply/undo flow of SessionsTab -/

/-- A live bookmark node under one of the rewritable roots: a leaf bookmark
(title, url) or a folder with an ordered list of children.  Store-assigned
ids are not modelled: the apply/undo flow addresses nodes only through the
two fixed roots and through the parent references produced while rebuilding,
so the tree structure itself is the faithful state. -/
inductive BTree where
  | leaf : String → String → BTree
  | folder : String → List BTree → BTree

/-- `SavedNode` of SessionsTab: `{ title, url?, children? }`, a detached
deep copy with no ids. -/
structure SavedNode where
  title : String
  url : Option String
  children : List SavedNode

mutual
/-- `snapshotNode` of handleApplyChanges: copy title and url, recurse
through `node.children || []`. -/
def snapshotNode : BTree → SavedNode
  | BTree.leaf t u => ⟨t, some u, []⟩
  | BTree.folder t cs => ⟨t, none, snapshotList cs⟩

/-- Snapshot of a list of children, in order (`children.map(snapshotNode)`). -/
def snapshotList : List BTree → List SavedNode
  | [] => []
  | c :: cs => snapshotNode c :: snapshotList cs
end

mutual
/-- One step of `restoreChildren`: `if (n.url)` — a truthy (nonempty) url
recreates a bookmark; otherwise a folder is created and the children are
restored under it. -/
def restoreNode : SavedNode → BTree
  | ⟨t, some u, cs⟩ => if u ≠ "" then BTree.leaf t u else BTree.folder t (restoreList cs)
  | ⟨t, none, cs⟩ => BTree.folder t (restoreList cs)

/-- `restoreChildren(parentId, nodes)`: recreate the nodes in order;
`createBookmark` appends each new node at the end of the parent's children. -/
def restoreList : List SavedNode → List BTree
  | [] => []
  | c :: cs => restoreNode c :: restoreList cs
end

mutual
/-- Store invariant: every bookmark leaf has a nonempty url (the external
store assigns urls on creation and cannot hold a bookmark with an empty
url; a create call without a truthy url produces a folder). -/
def wfTree : BTree → Bool
  | BTree.leaf _ u => !(u == "")
  | BTree.folder _ cs => wfList cs

/-- `wfTree` on every element of a children list. -/
def wfList : List BTree → Bool
  | [] => true
  | c :: cs => wfTree c && wfList cs
end

/-- The two rewritable roots: the children of the bookmarks bar (id '1')
and of other bookmarks (id '2'). -/
structure Store where
  bar : List BTree
  other : List BTree

/-- The backup captured in phase 1 of handleApplyChanges
(`setBookmarkBackup({ bar, other })`). -/
structure Backup where
  bar : List SavedNode
  other : List SavedNode

/-- Both roots satisfy the store invariant. -/
def wfStore (s : Store) : Bool := wfList s.bar && wfList s.other

/-- Phase 3 of handleApplyChanges: for each category, in mapping order,
create one folder under the bookmarks bar, then create each (title, url)
entry of the category, in entry order, under that folder.  Every create
appends at the end of its parent's children. -/
def recreateCategories (mapping : CategoryMapping) (bar : List BTree) : List BTree :=
  mapping.foldl
    (fun acc c =>
      acc ++ [BTree.folder c.1 (c.2.foldl (fun ch e => ch ++ [BTree.leaf e.1 e.2]) [])])
    bar

/-- `handleApplyChanges` (SessionsTab lines 473-547): snapshot the children
of both roots, clear both roots, then recreate the mapping's categories
under root '1' only.  Returns the new store and the captured backup. -/
def applyChanges (mapping : CategoryMapping) (s : Store) : Store × Backup :=
  (⟨recreateCategories mapping [], []⟩, ⟨snapshotList s.bar, snapshotList s.other⟩)

/-- `handleUndoChanges` (SessionsTab lines 618-658): clear both roots and
restore each root's children from the backup. -/
def undoChanges (b : Backup) : Store :=
  ⟨restoreList b.bar, restoreList b.other⟩

/-- A frame of the useUndoRedo hook's stacks, as seen by the SessionsTab
flow.  That flow never calls `addUndoFrame`, so the payload carried by a
frame is irrelevant to it and only the identity is kept. -/
structure RFrame where
  id : String
deriving DecidableEq

/-- Combined state of the SessionsTab flow and the hook's stacks:
the store, the one-shot `bookmarkBackup`, and the hook's undo/redo stacks. -/
structure SessionSys where
  store : Store
  backup : Option Backup
  hookUndo : List RFrame
  hookRedo : List RFrame

/-- `handleApplyChanges` on the combined state: mutate the store and record
the backup.  No undo frame is pushed (SessionsTab has no `addUndoFrame`
call), so the hook stacks are untouched. -/
def sysApply (m : CategoryMapping) (st : SessionSys) : SessionSys :=
  ⟨(applyChanges m st.store).1, some (applyChanges m st.store).2, st.hookUndo, st.hookRedo⟩

/-- `handleUndoChanges` on the combined state: restore from the backup and
discard it (`setBookmarkBackup(null)`); a no-op when there is no backup. -/
def sysUndo (st : SessionSys) : SessionSys :=
  match st.backup with
  | none => st
  | some b => ⟨undoChanges b, none, st.hookUndo, st.hookRedo⟩

/-- `performRedo` of useUndoRedo on the combined state: a guarded no-op when
`redoStack` is empty (`if (!canRedo) return`); otherwise pop the front
frame, run the type-specific forward handler against the store, and move
the frame to `undoStack`.  The handler is a parameter because the flow
under verification never reaches it: nothing in the reorganize flow ever
pushes a frame. -/
def sysPerformRedo (handler : RFrame → Store → Store) (st : SessionSys) : SessionSys :=
  match st.hookRedo with
  | [] => st
  | f :: rest => ⟨handler f st.store, st.backup, f :: st.hookUndo, rest⟩

/-- The titles of the top-level nodes of a root, a discriminator used to
tell two stores apart. -/
def topTitles (l : List BTree) : List String :=
  l.map (fun t => match t with | BTree.leaf a _ => a | BTree.folder a _ => a)

/-! ## The useUndoRedo stack (src/unnamed/part_000, lines 350-634) -/

/-- An undo frame as stored by the hook: the generated id plus its
operation type; the before/after payloads do not matter for the stack
discipline verified here. -/
structure UFrame where
  id : String
  ftype : String
deriving DecidableEq

/-- The hook's two stacks. -/
structure URState where
  undoStack : List UFrame
  redoStack : List UFrame
deriving DecidableEq

/-- `addUndoFrame`: `setUndoStack(prev => [newFrame, ...prev.slice(0, 49)])`
and `setRedoStack([])`. -/
def addUndoFrame (f : UFrame) (s : URState) : URState :=
  ⟨f :: s.undoStack.take 49, []⟩

/-- `performUndo` with the dispatched handler modelled as a fallible
function: no-op on an empty stack; if the handler throws, the catch block
only logs and both stacks stay untouched; on success the popped frame moves
to the front of `redoStack`. -/
def performUndoE (h : UFrame → Except String Unit) (s : URState) : URState :=
  match s.undoStack with
  | [] => s
  | f :: rest =>
    match h f with
    | Except.error _ => s
    | Except.ok _ => ⟨rest, f :: s.redoStack⟩

/-- `performRedo`, symmetric to `performUndoE`. -/
def performRedoE (h : UFrame → Except String Unit) (s : URState) : URState :=
  match s.redoStack with
  | [] => s
  | f :: rest =>
    match h f with
    | Except.error _ => s
    | Except.ok _ => ⟨f :: s.undoStack, rest⟩

/-- An abstract stack operation: adding a frame, or an undo/redo whose
dispatched handler either succeeded (`true`) or threw (`false`). -/
inductive StackOp where
  | add : UFrame → StackOp
  | undo : Bool → StackOp
  | redo : Bool → StackOp

/-- The stack effect of one operation (the stack discipline of
`addUndoFrame` / `performUndo` / `performRedo`). -/
def stackStep (s : URState) : StackOp → URState
  | StackOp.add f => addUndoFrame f s
  | StackOp.undo ok =>
    match s.undoStack with
    | [] => s
    | f :: rest => if ok then ⟨rest, f :: s.redoStack⟩ else s
  | StackOp.redo ok =>
    match s.redoStack with
    | [] => s
    | f :: rest => if ok then ⟨f :: s.undoStack, rest⟩ else s

/-- Run a sequence of stack operations. -/
def runOps (s : URState) (ops : List StackOp) : URState := ops.foldl stackStep s

/-- Whether an operation adds a frame carrying the given id. -/
def opAddsId (o : StackOp) (i : String) : Bool :=
  match o with
  | StackOp.add f => f.id == i
  | _ => false

/-- Two overlapping `performUndo` invocations: the second arrives while the
first is awaiting its handler, so both capture the same `undoStack[0]` (the
closure state of the same render) and both pass the `canUndo` check — the
source has no in-flight guard.  Both then commit their functional state
updates in order: `prev => prev.slice(1)` twice and
`prev => [frame, ...prev]` twice with the same frame. -/
def overlappedPerformUndo (s : URState) : URState :=
  match s.undoStack with
  | [] => s
  | f :: _ => ⟨(s.undoStack.drop 1).drop 1, f :: f :: s.redoStack⟩

/-! ## Helper lemmas -/

/-! ### The response sanitizer of aiService.ts (`extractJsonObject`), embedded
over `List Char`.  `stripTCRun` is the single left-to-right pass of
`replace(/,\s*([}\]])/g, '$1')`; `jsonParse` is a fuelled `JSON.parse` for the
fragment of JSON the categorizer exchanges (strings, booleans, null, arrays,
objects); the stages mirror the try/catch cascade of lines 53-116: fence
cleanup, object-head parse, first-`{`-to-last-`}` slice, and the balanced
brace scan.  `renderVal`/`embedText` render a value and embed it in fences,
prose and optional trailing commas for the round-trip statement of C7;
`firstOpenIdx`/`zeroReturns`/`specFirstSpan` transcribe the spec's wording of
the scan for C8, `codeScanSpan` the code's. -/

def isWsChar (c : Char) : Bool := c = ' ' || c = '\n' || c = '\t' || c = '\r'

def skipWs (s : List Char) : List Char := s.dropWhile isWsChar

-- single left-to-right pass of replace(/,\s*([}\]])/g, '$1')
def stripTCRun : Bool → List Char → List Char
  | _, [] => []
  | false, c :: rest =>
      if c = ',' then
        match (rest.dropWhile isWsChar).head? with
        | some b =>
            if b = Char.ofNat 125 || b = ']' then stripTCRun true rest
            else c :: stripTCRun false rest
        | none => c :: stripTCRun false rest
      else c :: stripTCRun false rest
  | true, c :: rest =>
      if isWsChar c then stripTCRun true rest
      else c :: stripTCRun false rest

def stripTC (s : List Char) : List Char := stripTCRun false s

def escChar (c : Char) : Option Char :=
  if c = '"' then some '"'
  else if c = '\\' then some '\\'
  else if c = '/' then some '/'
  else if c = 'n' then some '\n'
  else if c = 't' then some '\t'
  else if c = 'r' then some '\r'
  else none

def lexStr : List Char → Option (List Char × List Char)
  | [] => none
  | '"' :: rest => some ([], rest)
  | '\\' :: c :: rest =>
      match escChar c, lexStr rest with
      | some e, some (cs, r) => some (e :: cs, r)
      | _, _ => none
  | '\\' :: [] => none
  | c :: rest =>
      if c.toNat < 32 then none
      else match lexStr rest with
        | some (cs, r) => some (c :: cs, r)
        | none => none

def membersLoop (pv : List Char → Option (JsonVal × List Char)) :
    Nat → List Char → Option (List (String × JsonVal) × List Char)
  | 0, _ => none
  | mf+1, s =>
    match skipWs s with
    | '"' :: rest =>
      match lexStr rest with
      | some (k, r1) =>
        match skipWs r1 with
        | ':' :: r2 =>
          match pv r2 with
          | some (v, r3) =>
            match skipWs r3 with
            | ',' :: r4 =>
              match membersLoop pv mf r4 with
              | some (ms, r5) => some ((String.mk k, v) :: ms, r5)
              | none => none
            | Char.ofNat 125 :: r4 => some ([(String.mk k, v)], r4)
            | _ => none
          | none => none
        | _ => none
      | none => none
    | _ => none

def itemsLoop (pv : List Char → Option (JsonVal × List Char)) :
    Nat → List Char → Option (List JsonVal × List Char)
  | 0, _ => none
  | mf+1, s =>
    match pv s with
    | some (v, r1) =>
      match skipWs r1 with
      | ',' :: r2 =>
        match itemsLoop pv mf r2 with
        | some (vs, r3) => some (v :: vs, r3)
        | none => none
      | ']' :: r2 => some ([v], r2)
      | _ => none
    | none => none

def parseVal : Nat → List Char → Option (JsonVal × List Char)
  | 0, _ => none
  | fuel+1, s =>
    match skipWs s with
    | Char.ofNat 123 :: rest =>
      match skipWs rest with
      | Char.ofNat 125 :: r2 => some (JsonVal.obj [], r2)
      | r2 =>
        match membersLoop (parseVal fuel) (r2.length + 1) r2 with
        | some (ms, r3) => some (JsonVal.obj ms, r3)
        | none => none
    | '[' :: rest =>
      match skipWs rest with
      | ']' :: r2 => some (JsonVal.arr [], r2)
      | r2 =>
        match itemsLoop (parseVal fuel) (r2.length + 1) r2 with
        | some (vs, r3) => some (JsonVal.arr vs, r3)
        | none => none
    | '"' :: rest =>
      match lexStr rest with
      | some (cs, r) => some (JsonVal.str (String.mk cs), r)
      | none => none
    | 't' :: 'r' :: 'u' :: 'e' :: r => some (JsonVal.bool true, r)
    | 'f' :: 'a' :: 'l' :: 's' :: 'e' :: r => some (JsonVal.bool false, r)
    | 'n' :: 'u' :: 'l' :: 'l' :: r => some (JsonVal.null, r)
    | _ => none

def jsonParse (s : List Char) : Option JsonVal :=
  match parseVal (s.length + 1) s with
  | some (v, rest) => if (skipWs rest).isEmpty then some v else none
  | none => none

def jsonTruthy : JsonVal → Bool
  | JsonVal.str s => !(s == "")
  | JsonVal.bool b => b
  | JsonVal.null => false
  | JsonVal.arr _ => true
  | JsonVal.obj _ => true

def tryParse (s : List Char) : Option JsonVal := jsonParse (stripTC s)

def stageTry (s : List Char) : Option JsonVal :=
  match tryParse s with
  | some v => if jsonTruthy v then some v else none
  | none => none

-- fences
def stripLeadFence (s : List Char) : List Char :=
  match s with
  | Char.ofNat 96 :: Char.ofNat 96 :: Char.ofNat 96 :: c1 :: c2 :: c3 :: c4 :: rest =>
      if c1.toLower = 'j' && c2.toLower = 's' && c3.toLower = 'o' && c4.toLower = 'n'
      then rest.dropWhile isWsChar else s
  | _ => s

def stripTailFence (s : List Char) : List Char :=
  match s.reverse.dropWhile isWsChar with
  | Char.ofNat 96 :: Char.ofNat 96 :: Char.ofNat 96 :: rest => rest.reverse
  | _ => s

def trimWs (s : List Char) : List Char :=
  ((s.dropWhile isWsChar).reverse.dropWhile isWsChar).reverse

def splitAtTicks : List Char → Option (List Char × List Char)
  | [] => none
  | Char.ofNat 96 :: Char.ofNat 96 :: Char.ofNat 96 :: rest => some ([], rest)
  | c :: rest =>
      match splitAtTicks rest with
      | some p => some (c :: p.1, p.2)
      | none => none

def dropJsonTag (s : List Char) : List Char :=
  match s with
  | c1 :: c2 :: c3 :: c4 :: rest =>
      if c1.toLower = 'j' && c2.toLower = 's' && c3.toLower = 'o' && c4.toLower = 'n'
      then rest else s
  | _ => s

def findFenced (s : List Char) : Option (List Char) :=
  match splitAtTicks s with
  | none => none
  | some (_, rest) =>
      match splitAtTicks ((dropJsonTag rest).dropWhile isWsChar) with
      | none => none
      | some (body, _) => some body

def cleanFences (s : List Char) : List Char :=
  let c1 := trimWs (stripTailFence (stripLeadFence s))
  match findFenced c1 with
  | some body => if body.isEmpty then c1 else trimWs body
  | none => c1

def stage3 (c : List Char) : Option JsonVal :=
  if c.head? = some (Char.ofNat 123) ∧ c.contains (Char.ofNat 125) then stageTry c else none

def sliceFL (c : List Char) : Option (List Char) :=
  match c.dropWhile (fun x => !(x = Char.ofNat 123)) with
  | [] => none
  | t =>
      match (t.reverse.dropWhile (fun x => !(x = Char.ofNat 125))).reverse with
      | [] => none
      | u => some u

def stage4 (c : List Char) : Option JsonVal :=
  match sliceFL c with
  | some cand => stageTry cand
  | none => none

def scanGo : List Char → Nat → Nat → Option Nat → Option Nat → (Option Nat × Option Nat)
  | [], _, _, bs, be => (bs, be)
  | c :: rest, i, depth, bs, be =>
      if c = Char.ofNat 123 then
        scanGo rest (i+1) (depth+1) (if depth = 0 ∧ bs = none then some i else bs) be
      else if c = Char.ofNat 125 then
        if depth = 0 then scanGo rest (i+1) 0 bs be
        else if depth = 1 then scanGo rest (i+1) 0 bs (some i)
        else scanGo rest (i+1) (depth - 1) bs be
      else scanGo rest (i+1) depth bs be

def scanBal (s : List Char) : Option Nat × Option Nat := scanGo s 0 0 none none

def stage5 (c : List Char) : Option JsonVal :=
  match scanBal c with
  | (some bs, some be) => stageTry ((c.drop bs).take (be + 1 - bs))
  | _ => none

def extractJsonObject (s : List Char) : Option JsonVal :=
  match stage3 (cleanFences s) with
  | some v => some v
  | none =>
    match stage4 (cleanFences s) with
    | some v => some v
    | none => stage5 (cleanFences s)

-- Modelled from the spec: the index of the first (top-level) opening brace.
def firstOpenIdx : List Char → Nat → Option Nat
  | [], _ => none
  | c :: rest, i => if c = Char.ofNat 123 then some i else firstOpenIdx rest (i+1)

-- Modelled from the spec: indices where the brace nesting depth returns to zero.
def zeroReturns : List Char → Nat → Nat → List Nat
  | [], _, _ => []
  | c :: rest, i, depth =>
      if c = Char.ofNat 123 then zeroReturns rest (i+1) (depth+1)
      else if c = Char.ofNat 125 then
        (if depth = 1 then i :: zeroReturns rest (i+1) 0 else zeroReturns rest (i+1) (depth - 1))
      else zeroReturns rest (i+1) depth

-- first '{' seen while the running depth is zero, starting from a given depth
def firstTopOpenD : List Char → Nat → Nat → Option Nat
  | [], _, _ => none
  | c :: rest, i, depth =>
      if c = Char.ofNat 123 then
        (if depth = 0 then some i else firstTopOpenD rest (i+1) (depth+1))
      else if c = Char.ofNat 125 then firstTopOpenD rest (i+1) (depth - 1)
      else firstTopOpenD rest (i+1) depth

def specFirstSpan (s : List Char) : Option (Nat × Nat) :=
  match firstOpenIdx s 0, (zeroReturns s 0 0).head? with
  | some i, some j => some (i, j)
  | _, _ => none

def codeScanSpan (s : List Char) : Option (Nat × Nat) :=
  match scanBal s with
  | (some i, some j) => some (i, j)
  | _ => none

mutual
def renderVal (tc : Bool) : JsonVal → List Char
  | JsonVal.str s => '"' :: (s.data ++ ['"'])
  | JsonVal.bool true => ['t', 'r', 'u', 'e']
  | JsonVal.bool false => ['f', 'a', 'l', 's', 'e']
  | JsonVal.null => ['n', 'u', 'l', 'l']
  | JsonVal.arr vs =>
      '[' :: (renderItems tc vs ++ (if tc && !vs.isEmpty then [','] else []) ++ [']'])
  | JsonVal.obj ms =>
      Char.ofNat 123 ::
        (renderMembers tc ms ++ (if tc && !ms.isEmpty then [','] else []) ++ [Char.ofNat 125])

def renderMembers (tc : Bool) : List (String × JsonVal) → List Char
  | [] => []
  | [m] => '"' :: (m.1.data ++ '"' :: ':' :: renderVal tc m.2)
  | m :: ms =>
      '"' :: (m.1.data ++ '"' :: ':' :: (renderVal tc m.2 ++ ',' :: renderMembers tc ms))

def renderItems (tc : Bool) : List JsonVal → List Char
  | [] => []
  | [v] => renderVal tc v
  | v :: vs => renderVal tc v ++ ',' :: renderItems tc vs
end

def plainChar (c : Char) : Bool :=
  !(c = '"' || c = '\\' || c = ',' || c = Char.ofNat 123 || c = Char.ofNat 125 ||
    c = '[' || c = ']' || c = Char.ofNat 96 || decide (c.toNat < 32))

def plainStr (s : String) : Bool := s.data.all plainChar

def nodupKeysB : List String → Bool
  | [] => true
  | k :: ks => !(ks.contains k) && nodupKeysB ks

mutual
def plainVal : JsonVal → Bool
  | JsonVal.str s => plainStr s
  | JsonVal.bool _ => true
  | JsonVal.null => true
  | JsonVal.arr vs => plainItems vs
  | JsonVal.obj ms => nodupKeysB (ms.map Prod.fst) && plainMembers ms

def plainMembers : List (String × JsonVal) → Bool
  | [] => true
  | m :: ms => plainStr m.1 && plainVal m.2 && plainMembers ms

def plainItems : List JsonVal → Bool
  | [] => true
  | v :: vs => plainVal v && plainItems vs
end

mutual
def needFuel : JsonVal → Nat
  | JsonVal.obj ms => 1 + needMembers ms
  | JsonVal.arr vs => 1 + needItems vs
  | _ => 1

def needMembers : List (String × JsonVal) → Nat
  | [] => 0
  | m :: ms => max (needFuel m.2) (needMembers ms)

def needItems : List JsonVal → Nat
  | [] => 0
  | v :: vs => max (needFuel v) (needItems vs)
end

def proseChar (c : Char) : Bool :=
  !(c = Char.ofNat 123 || c = Char.ofNat 125 || c = Char.ofNat 96)

def proseOk (s : List Char) : Bool := s.all proseChar

def fenceOpen : List Char :=
  Char.ofNat 96 :: Char.ofNat 96 :: Char.ofNat 96 :: 'j' :: 's' :: 'o' :: 'n' :: ['\n']

def fenceClose : List Char :=
  '\n' :: Char.ofNat 96 :: Char.ofNat 96 :: Char.ofNat 96 :: []

def embedText (fence : Bool) (pre post body : List Char) : List Char :=
  if fence then pre ++ fenceOpen ++ body ++ fenceClose ++ post
  else pre ++ body ++ post

def strOfVal : JsonVal → String := fun v =>
  match v with
  | JsonVal.str s => s
  | _ => ""

def probeC7 : Option JsonVal → String := fun o =>
  match o with
  | some (JsonVal.obj [(_, v)]) => strOfVal v
  | _ => ""

theorem contains_iff_mem {l : List String} {a : String} : l.contains a = true ↔ a ∈ l :=
  ⟨List.mem_of_elem_eq_true, List.elem_eq_true_of_mem⟩

theorem setKey_exists_key {α : Type} (m : List (String × α)) (k : String) (v : α) :
    ∃ w, (k, w) ∈ setKey m k v := by
  by_cases h : k ∈ m.map Prod.fst
  · refine ⟨v, ?_⟩
    rcases List.mem_map.mp h with ⟨p, hp, hpk⟩
    simp only [setKey, contains_iff_mem, h, if_true]
    exact List.mem_map.mpr ⟨p, hp, by simp [hpk]⟩
  · exact ⟨v, by simp [setKey, contains_iff_mem, h]⟩

theorem mem_setKey_of_ne {α : Type} {m : List (String × α)} {e : String × α}
    {k : String} {v : α} (he : e ∈ m) (hne : e.1 ≠ k) : e ∈ setKey m k v := by
  by_cases h : k ∈ m.map Prod.fst
  · simp only [setKey, contains_iff_mem, h, if_true]
    exact List.mem_map.mpr ⟨e, he, by simp [hne]⟩
  · simp [setKey, contains_iff_mem, h, he]

theorem setKey_key_persist {α : Type} {m : List (String × α)} {k' : String}
    (h : ∃ e ∈ m, e.1 = k') (k : String) (v : α) :
    ∃ e ∈ setKey m k v, e.1 = k' := by
  rcases h with ⟨e, he, hek⟩
  by_cases hkk : k' = k
  · rcases setKey_exists_key m k v with ⟨w, hw⟩
    exact ⟨(k, w), hw, by simp [hkk]⟩
  · exact ⟨e, mem_setKey_of_ne he (by simp [hek, hkk]), hek⟩

theorem setKey_keys {α : Type} (m : List (String × α)) (k : String) (v : α) :
    (setKey m k v).map Prod.fst =
      if k ∈ m.map Prod.fst then m.map Prod.fst
      else m.map Prod.fst ++ [k] := by
  by_cases h : k ∈ m.map Prod.fst
  · simp only [setKey, contains_iff_mem, h, if_true, List.map_map]
    apply List.map_congr_left
    intro p hp
    by_cases hpk : p.1 = k <;> simp [hpk, Function.comp]
  · simp [setKey, contains_iff_mem, h]

theorem setKey_ne_nil {α : Type} (m : List (String × α)) (k : String) (v : α) :
    setKey m k v ≠ [] := by
  by_cases h : k ∈ m.map Prod.fst
  · simp only [setKey, contains_iff_mem, h, if_true]
    intro hc
    rw [List.map_eq_nil_iff] at hc
    subst hc
    simp at h
  · simp [setKey, contains_iff_mem, h]

theorem setKey_keys_nodup {α : Type} {m : List (String × α)} (k : String) (v : α)
    (h : (m.map Prod.fst).Nodup) : ((setKey m k v).map Prod.fst).Nodup := by
  rw [setKey_keys]
  by_cases hc : k ∈ m.map Prod.fst
  · simpa [hc] using h
  · simp only [hc, if_false]
    rw [List.nodup_append]
    exact ⟨h, List.nodup_singleton k, by
      intro a ha hak
      simp at hak
      exact hc (hak ▸ ha)⟩

theorem mem_entriesOf {r : CategoryMapping} {e : String × String} :
    e ∈ entriesOf r ↔ ∃ c ∈ r, e ∈ c.2 := by
  simp only [entriesOf, List.mem_flatten, List.mem_map]
  constructor
  · rintro ⟨l, ⟨c, hc, rfl⟩, he⟩
    exact ⟨c, hc, he⟩
  · rintro ⟨c, hc, he⟩
    exact ⟨c.2, ⟨c, hc, rfl⟩, he⟩

theorem mem_presentUrls {r : CategoryMapping} {u : String} :
    u ∈ presentUrls r ↔ u ≠ "" ∧ ∃ e ∈ entriesOf r, e.2 = u := by
  simp only [presentUrls, List.mem_filterMap]
  constructor
  · rintro ⟨e, he, hu⟩
    by_cases h2 : e.2 = "" <;> simp [h2] at hu
    exact ⟨hu ▸ h2, e, he, hu⟩
  · rintro ⟨hne, e, he, rfl⟩
    exact ⟨e, he, by simp [hne]⟩

theorem mem_presentTitles {r : CategoryMapping} {t : String} :
    t ∈ presentTitles r ↔ t ≠ "" ∧ ∃ e ∈ entriesOf r, e.1 = t := by
  simp only [presentTitles, List.mem_filterMap]
  constructor
  · rintro ⟨e, he, ht⟩
    by_cases h1 : e.1 = "" <;> simp [h1] at ht
    exact ⟨ht ▸ h1, e, he, ht⟩
  · rintro ⟨hne, e, he, rfl⟩
    exact ⟨e, he, by simp [hne]⟩

theorem amStep_skip {u t : List String} {res : CategoryMapping} {b : Bookmark}
    (h : (u.contains b.2 || t.contains b.1) = true) : amStep u t res b = res := by
  unfold amStep
  rw [if_pos h]

theorem amStep_not_skip {u t : List String} (res : CategoryMapping) (b : Bookmark)
    (h : ¬((u.contains b.2 || t.contains b.1) = true)) :
    amStep u t res b =
      res.map (fun p => if p.1 = "Other" then (p.1, setKey p.2 b.1 b.2) else p) := by
  unfold amStep
  rw [if_neg h]

theorem amStep_keys (u t : List String) (res : CategoryMapping) (b : Bookmark) :
    (amStep u t res b).map Prod.fst = res.map Prod.fst := by
  by_cases h : (u.contains b.2 || t.contains b.1) = true
  · rw [amStep_skip h]
  · rw [amStep_not_skip res b h, List.map_map]
    apply List.map_congr_left
    intro p hp
    by_cases hpo : p.1 = "Other" <;> simp [hpo, Function.comp]

theorem amStep_entry_preserved {u t : List String} {res : CategoryMapping}
    {b : Bookmark} {e : String × String} (he : e ∈ entriesOf res) (hne : e.1 ≠ b.1) :
    e ∈ entriesOf (amStep u t res b) := by
  by_cases h : (u.contains b.2 || t.contains b.1) = true
  · rw [amStep_skip h]; exact he
  · rw [amStep_not_skip res b h]
    rcases mem_entriesOf.mp he with ⟨c, hc, hec⟩
    by_cases hco : c.1 = "Other"
    · refine mem_entriesOf.mpr ⟨(c.1, setKey c.2 b.1 b.2),
        List.mem_map.mpr ⟨c, hc, by simp [hco]⟩, ?_⟩
      exact mem_setKey_of_ne hec hne
    · exact mem_entriesOf.mpr ⟨c, List.mem_map.mpr ⟨c, hc, by simp [hco]⟩, hec⟩

theorem amStep_key_persist {u t : List String} {res : CategoryMapping}
    {b : Bookmark} {k : String} (h : ∃ e ∈ entriesOf res, e.1 = k) :
    ∃ e ∈ entriesOf (amStep u t res b), e.1 = k := by
  by_cases hs : (u.contains b.2 || t.contains b.1) = true
  · rw [amStep_skip hs]; exact h
  · rw [amStep_not_skip res b hs]
    rcases h with ⟨e, he, hek⟩
    rcases mem_entriesOf.mp he with ⟨c, hc, hec⟩
    by_cases hco : c.1 = "Other"
    · rcases setKey_key_persist ⟨e, hec, hek⟩ b.1 b.2 with ⟨e2, he2, hek2⟩
      exact ⟨e2, mem_entriesOf.mpr ⟨(c.1, setKey c.2 b.1 b.2),
        List.mem_map.mpr ⟨c, hc, by simp [hco]⟩, he2⟩, hek2⟩
    · exact ⟨e, mem_entriesOf.mpr ⟨c, List.mem_map.mpr ⟨c, hc, by simp [hco]⟩, hec⟩, hek⟩

theorem amStep_trigger_key {u t : List String} {res : CategoryMapping} {b : Bookmark}
    (hother : ∃ c ∈ res, c.1 = "Other")
    (htrig : ¬((u.contains b.2 || t.contains b.1) = true)) :
    ∃ e ∈ entriesOf (amStep u t res b), e.1 = b.1 := by
  rw [amStep_not_skip res b htrig]
  rcases hother with ⟨c, hc, hco⟩
  rcases setKey_exists_key c.2 b.1 b.2 with ⟨w, hw⟩
  exact ⟨(b.1, w), mem_entriesOf.mpr ⟨(c.1, setKey c.2 b.1 b.2),
    List.mem_map.mpr ⟨c, hc, by simp [hco]⟩, hw⟩, rfl⟩

theorem amStep_cat_keys_mem {u t : List String} {res : CategoryMapping} {b : Bookmark}
    (h : ∃ c ∈ res, c.1 = "Other") : ∃ c ∈ amStep u t res b, c.1 = "Other" := by
  by_cases hs : (u.contains b.2 || t.contains b.1) = true
  · rw [amStep_skip hs]; exact h
  · rw [amStep_not_skip res b hs]
    rcases h with ⟨c, hc, hco⟩
    exact ⟨(c.1, setKey c.2 b.1 b.2), List.mem_map.mpr ⟨c, hc, by simp [hco]⟩, by simp [hco]⟩

-- ==== fold lemmas ====

theorem foldAM_key_persist {u t : List String} {k : String} :
    ∀ (bs : List Bookmark) (res : CategoryMapping),
      (∃ e ∈ entriesOf res, e.1 = k) →
      ∃ e ∈ entriesOf (bs.foldl (amStep u t) res), e.1 = k := by
  intro bs
  induction bs with
  | nil => intro res h; simpa using h
  | cons b bs ih => intro res h; exact ih _ (amStep_key_persist h)

theorem foldAM_other_persist {u t : List String} :
    ∀ (bs : List Bookmark) (res : CategoryMapping),
      (∃ c ∈ res, c.1 = "Other") →
      ∃ c ∈ bs.foldl (amStep u t) res, c.1 = "Other" := by
  intro bs
  induction bs with
  | nil => intro res h; simpa using h
  | cons b bs ih => intro res h; exact ih _ (amStep_cat_keys_mem h)

theorem foldAM_entry_survive {u t : List String} {e : String × String} :
    ∀ (bs : List Bookmark) (res : CategoryMapping),
      (∀ b ∈ bs, b.1 ≠ "") →
      e ∈ entriesOf res → (e.1 = "" ∨ t.contains e.1 = true) →
      e ∈ entriesOf (bs.foldl (amStep u t) res) := by
  intro bs
  induction bs with
  | nil => intro res _ he _; simpa using he
  | cons b bs ih =>
    intro res hB he hprot
    refine ih _ (fun x hx => hB x (List.mem_cons_of_mem _ hx)) ?_ hprot
    by_cases hs : (u.contains b.2 || t.contains b.1) = true
    · rw [amStep_skip hs]
      exact he
    · apply amStep_entry_preserved he
      intro hne
      rcases hprot with h1 | h2
      · exact hB b (List.mem_cons_self _ _) (hne ▸ h1)
      · rw [hne] at h2
        simp only [Bool.or_eq_true] at hs
        exact hs (Or.inr h2)

theorem foldAM_trigger {u t : List String} :
    ∀ (bs : List Bookmark) (res : CategoryMapping) (b : Bookmark),
      (∃ c ∈ res, c.1 = "Other") → b ∈ bs →
      ¬((u.contains b.2 || t.contains b.1) = true) →
      ∃ e ∈ entriesOf (bs.foldl (amStep u t) res), e.1 = b.1 := by
  intro bs
  induction bs with
  | nil => intro res b _ hb; exact absurd hb (List.not_mem_nil b)
  | cons bh bs ih =>
    intro res b hother hb htrig
    rcases List.mem_cons.mp hb with rfl | hbmem
    · exact foldAM_key_persist bs _ (amStep_trigger_key hother htrig)
    · exact ih _ b (amStep_cat_keys_mem hother) hbmem htrig

theorem ensureOther_has_other (r : CategoryMapping) :
    ∃ c ∈ ensureOther r, c.1 = "Other" := by
  unfold ensureOther
  by_cases h : (r.map Prod.fst).contains "Other" = true
  · rw [if_pos h]
    rcases List.mem_map.mp (contains_iff_mem.mp h) with ⟨c, hc, hco⟩
    exact ⟨c, hc, hco⟩
  · rw [if_neg h]
    exact ⟨("Other", []), by simp⟩

theorem normalize_presence (output : JsonVal) (bs : List Bookmark)
    (hB : ∀ b ∈ bs, b.1 ≠ "") :
    ∀ b ∈ bs,
      b.2 ∈ presentUrls (normalizeCategorizationOutput output bs) ∨
      b.1 ∈ presentTitles (normalizeCategorizationOutput output bs) := by
  intro b hb
  set r0 := ensureOther (acceptCandidate output) with hr0
  set u0 := presentUrls r0 with hu0
  set t0 := presentTitles r0 with ht0
  have hnorm : normalizeCategorizationOutput output bs = bs.foldl (amStep u0 t0) r0 := rfl
  by_cases hs : (u0.contains b.2 || t0.contains b.1) = true
  · rcases Bool.or_eq_true _ _ |>.mp hs with hu | ht
    · -- matched by url in r0: that entry survives
      rcases (mem_presentUrls.mp (contains_iff_mem.mp hu)) with ⟨hne, e, he, heu⟩
      have hprot : e.1 = "" ∨ t0.contains e.1 = true := by
        by_cases h1 : e.1 = ""
        · exact Or.inl h1
        · exact Or.inr (contains_iff_mem.mpr (mem_presentTitles.mpr ⟨h1, e, he, rfl⟩))
      have hsurv := @foldAM_entry_survive u0 _ _ bs r0 hB he hprot
      left
      rw [hnorm]
      exact mem_presentUrls.mpr ⟨heu ▸ hne, e, hsurv, heu⟩
    · -- matched by title in r0
      rcases (mem_presentTitles.mp (contains_iff_mem.mp ht)) with ⟨hne, e, he, het⟩
      have hprot : e.1 = "" ∨ t0.contains e.1 = true := Or.inr (het ▸ ht)
      have hsurv := @foldAM_entry_survive u0 _ _ bs r0 hB he hprot
      right
      rw [hnorm]
      exact mem_presentTitles.mpr ⟨het ▸ hne, e, hsurv, het⟩
  · -- not matched: the loop writes b.title into Other, which then persists
    have hother := ensureOther_has_other (acceptCandidate output)
    rcases foldAM_trigger bs r0 b hother hb hs with ⟨e, he, hek⟩
    right
    rw [hnorm]
    exact mem_presentTitles.mpr ⟨hB b hb, e, he, hek⟩

theorem setKey_of_not_mem {α : Type} {m : List (String × α)} {k : String} (v : α)
    (h : k ∉ m.map Prod.fst) : setKey m k v = m ++ [(k, v)] := by
  unfold setKey
  rw [if_neg (by simpa using h)]

theorem setKey_mem_cases {α : Type} {m : List (String × α)} {k : String} {v : α}
    {e : String × α} (he : e ∈ setKey m k v) : e ∈ m ∨ e = (k, v) := by
  unfold setKey at he
  by_cases h : (m.map Prod.fst).contains k
  · rw [if_pos h] at he
    rcases List.mem_map.mp he with ⟨p, hp, hpe⟩
    by_cases hpk : p.1 = k
    · right; rw [← hpe]; simp [hpk]
    · left; rw [← hpe]; simpa [hpk] using hp
  · rw [if_neg h] at he
    rcases List.mem_append.mp he with h1 | h2
    · exact Or.inl h1
    · exact Or.inr (by simpa using h2)

theorem foldAM_keys (u t : List String) :
    ∀ (bs : List Bookmark) (res : CategoryMapping),
      (bs.foldl (amStep u t) res).map Prod.fst = res.map Prod.fst := by
  intro bs
  induction bs with
  | nil => intro res; rfl
  | cons b bs ih => intro res; rw [List.foldl_cons, ih, amStep_keys]

theorem foldAM_all_skip {u t : List String} :
    ∀ (bs : List Bookmark) (res : CategoryMapping),
      (∀ b ∈ bs, (u.contains b.2 || t.contains b.1) = true) →
      bs.foldl (amStep u t) res = res := by
  intro bs
  induction bs with
  | nil => intro res _; rfl
  | cons b bs ih =>
    intro res h
    rw [List.foldl_cons, amStep_skip (h b (List.mem_cons_self _ _))]
    exact ih res (fun x hx => h x (List.mem_cons_of_mem _ hx))

theorem foldAM_shape {u t : List String} :
    ∀ (bs : List Bookmark) (a1 a2 : CategoryMapping) (m : CatMap),
      (∀ c ∈ a1, c.1 ≠ "Other") → (∀ c ∈ a2, c.1 ≠ "Other") →
      bs.foldl (amStep u t) (a1 ++ ("Other", m) :: a2) =
        a1 ++ ("Other", gOther u t bs m) :: a2 := by
  intro bs
  induction bs with
  | nil => intro a1 a2 m _ _; rfl
  | cons b bs ih =>
    intro a1 a2 m h1 h2
    rw [List.foldl_cons]
    by_cases hs : (u.contains b.2 || t.contains b.1) = true
    · rw [amStep_skip hs, ih a1 a2 m h1 h2]
      have : gOther u t (b :: bs) m = gOther u t bs m := by
        unfold gOther
        rw [List.foldl_cons, if_pos hs]
      rw [this]
    · rw [amStep_not_skip _ b hs]
      have hid1 : a1.map (fun p => if p.1 = "Other" then (p.1, setKey p.2 b.1 b.2) else p) = a1 := by
        refine (List.map_congr_left ?_).trans (List.map_id a1)
        intro c hc
        simp [h1 c hc]
      have hid2 : a2.map (fun p => if p.1 = "Other" then (p.1, setKey p.2 b.1 b.2) else p) = a2 := by
        refine (List.map_congr_left ?_).trans (List.map_id a2)
        intro c hc
        simp [h2 c hc]
      have hmap : (a1 ++ ("Other", m) :: a2).map
          (fun p => if p.1 = "Other" then (p.1, setKey p.2 b.1 b.2) else p) =
          a1 ++ ("Other", setKey m b.1 b.2) :: a2 := by
        rw [List.map_append, List.map_cons, hid1, hid2]
        simp
      rw [hmap, ih a1 a2 _ h1 h2]
      have : gOther u t (b :: bs) m = gOther u t bs (setKey m b.1 b.2) := by
        unfold gOther
        rw [List.foldl_cons, if_neg hs]
      rw [this]

theorem gOther_eq_nil {u t : List String} :
    ∀ (bs : List Bookmark) (m : CatMap), gOther u t bs m = [] → m = [] := by
  intro bs
  induction bs with
  | nil => intro m h; exact h
  | cons b bs ih =>
    intro m h
    unfold gOther at h
    rw [List.foldl_cons] at h
    by_cases hs : (u.contains b.2 || t.contains b.1) = true
    · rw [if_pos hs] at h
      exact ih m h
    · rw [if_neg hs] at h
      exact absurd (ih _ h) (setKey_ne_nil m b.1 b.2)

theorem gOther_keys_nodup {u t : List String} :
    ∀ (bs : List Bookmark) (m : CatMap),
      (m.map Prod.fst).Nodup → ((gOther u t bs m).map Prod.fst).Nodup := by
  intro bs
  induction bs with
  | nil => intro m h; exact h
  | cons b bs ih =>
    intro m h
    unfold gOther
    rw [List.foldl_cons]
    by_cases hs : (u.contains b.2 || t.contains b.1) = true
    · rw [if_pos hs]; exact ih m h
    · rw [if_neg hs]; exact ih _ (setKey_keys_nodup _ _ h)

-- `validMapOf` of a rendered string map is the map itself (distinct keys)

theorem validMapOf_fold {acc : CatMap} :
    ∀ (m : CatMap),
      (∀ e ∈ m, e.1 ∉ acc.map Prod.fst) → (m.map Prod.fst).Nodup →
      (m.map (fun e => (e.1, JsonVal.str e.2))).foldl
        (fun acc p =>
          match p.2 with
          | JsonVal.str u => setKey acc p.1 u
          | _ => acc) acc = acc ++ m := by
  intro m
  induction m generalizing acc with
  | nil => intro _ _; simp
  | cons e m ih =>
    intro hfresh hnd
    rw [List.map_cons, List.foldl_cons]
    have hnotin : e.1 ∉ acc.map Prod.fst := hfresh e (List.mem_cons_self _ _)
    show (m.map (fun e => (e.1, JsonVal.str e.2))).foldl _ (setKey acc e.1 e.2) = _
    rw [setKey_of_not_mem e.2 hnotin]
    rw [List.map_cons] at hnd
    have hnd' := hnd.of_cons
    have hne : ∀ x ∈ m, x.1 ≠ e.1 := by
      intro x hx hxe
      have : e.1 ∈ m.map Prod.fst := hxe ▸ List.mem_map_of_mem Prod.fst hx
      exact (List.nodup_cons.mp hnd).1 this
    have hfresh' : ∀ x ∈ m, x.1 ∉ (acc ++ [(e.1, e.2)]).map Prod.fst := by
      intro x hx
      rw [List.map_append]
      intro hmem
      rcases List.mem_append.mp hmem with h1 | h2
      · exact hfresh x (List.mem_cons_of_mem _ hx) h1
      · simp at h2
        exact hne x hx h2
    rw [ih hfresh' hnd']
    simp

theorem validMapOf_toJson (m : CatMap) (hnd : (m.map Prod.fst).Nodup) :
    validMapOf (m.map (fun e => (e.1, JsonVal.str e.2))) = m := by
  have := @validMapOf_fold [] m (by simp) hnd
  simpa [validMapOf] using this

theorem accept_fold :
    ∀ (r : CategoryMapping) (acc : CategoryMapping),
      (∀ c ∈ r, c.1 ∉ acc.map Prod.fst) → (r.map Prod.fst).Nodup →
      (∀ c ∈ r, (c.2.map Prod.fst).Nodup) →
      (r.map (fun c => (c.1, JsonVal.obj (c.2.map (fun e => (e.1, JsonVal.str e.2)))))).foldl
        (fun result p =>
          match p.2 with
          | JsonVal.obj m =>
              let vm := validMapOf m
              if vm.isEmpty then result else setKey result p.1 vm
          | _ => result) acc
        = acc ++ r.filter (fun c => !c.2.isEmpty) := by
  intro r
  induction r with
  | nil => intro acc _ _ _; simp
  | cons c r ih =>
    intro acc hfresh hnd hvals
    rw [List.map_cons, List.foldl_cons]
    have hvm : validMapOf (c.2.map (fun e => (e.1, JsonVal.str e.2))) = c.2 :=
      validMapOf_toJson c.2 (hvals c (List.mem_cons_self _ _))
    rw [List.map_cons] at hnd
    have hnd' := hnd.of_cons
    have hcnotin : c.1 ∉ r.map Prod.fst := (List.nodup_cons.mp hnd).1
    have hvals' : ∀ x ∈ r, (x.2.map Prod.fst).Nodup :=
      fun x hx => hvals x (List.mem_cons_of_mem _ hx)
    by_cases hemp : c.2.isEmpty = true
    · show (r.map _).foldl _
        (match JsonVal.obj (c.2.map (fun e => (e.1, JsonVal.str e.2))) with
          | JsonVal.obj m =>
              let vm := validMapOf m
              if vm.isEmpty then acc else setKey acc c.1 vm
          | _ => acc) = _
      simp only [hvm]
      rw [if_pos hemp]
      rw [ih acc (fun x hx => hfresh x (List.mem_cons_of_mem _ hx)) hnd' hvals']
      rw [List.filter_cons, if_neg (by simp [hemp])]
    · show (r.map _).foldl _
        (match JsonVal.obj (c.2.map (fun e => (e.1, JsonVal.str e.2))) with
          | JsonVal.obj m =>
              let vm := validMapOf m
              if vm.isEmpty then acc else setKey acc c.1 vm
          | _ => acc) = _
      simp only [hvm]
      rw [if_neg hemp]
      rw [setKey_of_not_mem c.2 (hfresh c (List.mem_cons_self _ _))]
      have hfresh' : ∀ x ∈ r, x.1 ∉ (acc ++ [(c.1, c.2)]).map Prod.fst := by
        intro x hx
        rw [List.map_append]
        intro hmem
        rcases List.mem_append.mp hmem with h1 | h2
        · exact hfresh x (List.mem_cons_of_mem _ hx) h1
        · simp at h2
          exact hcnotin (h2 ▸ List.mem_map_of_mem Prod.fst hx)
      rw [ih _ hfresh' hnd' hvals']
      rw [List.filter_cons, if_pos (by simp [hemp])]
      simp

theorem accept_toJson (r : CategoryMapping)
    (hnd : (r.map Prod.fst).Nodup) (hvals : ∀ c ∈ r, (c.2.map Prod.fst).Nodup) :
    acceptCandidate (mappingToJson r) = r.filter (fun c => !c.2.isEmpty) := by
  have := accept_fold r [] (by simp) hnd hvals
  simpa [acceptCandidate, mappingToJson] using this

theorem validMapOf_keys_nodup_aux :
    ∀ (m : List (String × JsonVal)) (acc : CatMap), (acc.map Prod.fst).Nodup →
      ((m.foldl
        (fun acc p =>
          match p.2 with
          | JsonVal.str u => setKey acc p.1 u
          | _ => acc) acc).map Prod.fst).Nodup := by
  intro m
  induction m with
  | nil => intro acc h; exact h
  | cons p m ih =>
    intro acc h
    rw [List.foldl_cons]
    match hp : p.2 with
    | JsonVal.str u => exact ih _ (setKey_keys_nodup _ _ h)
    | JsonVal.bool b => exact ih _ h
    | JsonVal.null => exact ih _ h
    | JsonVal.arr l => exact ih _ h
    | JsonVal.obj o => exact ih _ h

theorem validMapOf_keys_nodup (m : List (String × JsonVal)) :
    ((validMapOf m).map Prod.fst).Nodup :=
  validMapOf_keys_nodup_aux m [] (by simp)

theorem accept_inv :
    ∀ (entries : List (String × JsonVal)) (acc : CategoryMapping),
      (acc.map Prod.fst).Nodup → (∀ c ∈ acc, c.2 ≠ [] ∧ (c.2.map Prod.fst).Nodup) →
      ((entries.foldl
        (fun result p =>
          match p.2 with
          | JsonVal.obj m =>
              let vm := validMapOf m
              if vm.isEmpty then result else setKey result p.1 vm
          | _ => result) acc).map Prod.fst).Nodup ∧
      (∀ c ∈ entries.foldl
        (fun result p =>
          match p.2 with
          | JsonVal.obj m =>
              let vm := validMapOf m
              if vm.isEmpty then result else setKey result p.1 vm
          | _ => result) acc, c.2 ≠ [] ∧ (c.2.map Prod.fst).Nodup) := by
  intro entries
  induction entries with
  | nil => intro acc h1 h2; exact ⟨h1, h2⟩
  | cons p entries ih =>
    intro acc h1 h2
    rw [List.foldl_cons]
    match hp : p.2 with
    | JsonVal.str u => exact ih _ h1 h2
    | JsonVal.bool b => exact ih _ h1 h2
    | JsonVal.null => exact ih _ h1 h2
    | JsonVal.arr l => exact ih _ h1 h2
    | JsonVal.obj o =>
      show ((entries.foldl _
        (let vm := validMapOf o
         if vm.isEmpty then acc else setKey acc p.1 vm)).map Prod.fst).Nodup ∧ _
      by_cases hemp : (validMapOf o).isEmpty = true
      · simp only [hemp, if_pos]
        exact ih _ h1 h2
      · simp only [hemp, if_neg, Bool.false_eq_true, not_false_eq_true]
        refine ih _ (setKey_keys_nodup _ _ h1) ?_
        intro c hc
        rcases setKey_mem_cases hc with hold | hnew
        · exact h2 c hold
        · subst hnew
          refine ⟨?_, validMapOf_keys_nodup o⟩
          intro hnil
          exact hemp (by simp [show validMapOf o = [] from hnil])

theorem acceptCandidate_keys_nodup (output : JsonVal) :
    ((acceptCandidate output).map Prod.fst).Nodup := by
  match output with
  | JsonVal.obj entries => exact (accept_inv entries [] (by simp) (by simp)).1
  | JsonVal.str s => simp [acceptCandidate]
  | JsonVal.bool b => simp [acceptCandidate]
  | JsonVal.null => simp [acceptCandidate]
  | JsonVal.arr l => simp [acceptCandidate]

theorem acceptCandidate_vals (output : JsonVal) :
    ∀ c ∈ acceptCandidate output, c.2 ≠ [] ∧ (c.2.map Prod.fst).Nodup := by
  match output with
  | JsonVal.obj entries => exact (accept_inv entries [] (by simp) (by simp)).2
  | JsonVal.str s => simp [acceptCandidate]
  | JsonVal.bool b => simp [acceptCandidate]
  | JsonVal.null => simp [acceptCandidate]
  | JsonVal.arr l => simp [acceptCandidate]

theorem ensureOther_of_mem {r : CategoryMapping} (h : "Other" ∈ r.map Prod.fst) :
    ensureOther r = r := by
  unfold ensureOther
  rw [if_pos (contains_iff_mem.mpr h)]

theorem ensureOther_of_not_mem {r : CategoryMapping} (h : "Other" ∉ r.map Prod.fst) :
    ensureOther r = r ++ [("Other", [])] := by
  unfold ensureOther
  rw [if_neg (by simpa using h)]

theorem other_decomp {A : CategoryMapping} (hnd : (A.map Prod.fst).Nodup)
    (h : "Other" ∈ A.map Prod.fst) :
    ∃ a1 m a2, A = a1 ++ ("Other", m) :: a2 ∧
      "Other" ∉ a1.map Prod.fst ∧ "Other" ∉ a2.map Prod.fst := by
  rcases List.mem_map.mp h with ⟨c, hc, hco⟩
  rcases List.append_of_mem hc with ⟨s, t, rfl⟩
  have hc2 : c = ("Other", c.2) := by
    rw [← hco]
  refine ⟨s, c.2, t, by rw [← hc2], ?_, ?_⟩
  · rw [List.map_append, List.map_cons, hco] at hnd
    have := (List.nodup_append.mp hnd).2.2
    intro hs
    exact this hs (List.mem_cons_self _ _)
  · rw [List.map_append, List.map_cons, hco] at hnd
    have := (List.nodup_append.mp hnd).2.1
    exact (List.nodup_cons.mp this).1

theorem addMissing_noop (R : CategoryMapping) (bs : List Bookmark)
    (h : ∀ b ∈ bs, b.2 ∈ presentUrls R ∨ b.1 ∈ presentTitles R) :
    addMissing R bs = R := by
  unfold addMissing
  apply foldAM_all_skip
  intro b hb
  rw [Bool.or_eq_true]
  rcases h b hb with h1 | h2
  · exact Or.inl (contains_iff_mem.mpr h1)
  · exact Or.inr (contains_iff_mem.mpr h2)

theorem normalize_idempotent (output : JsonVal) (bs : List Bookmark)
    (hB : ∀ b ∈ bs, b.1 ≠ "") :
    normalizeCategorizationOutput (mappingToJson (normalizeCategorizationOutput output bs)) bs
      = normalizeCategorizationOutput output bs := by
  have hAnd := acceptCandidate_keys_nodup output
  have hAvals := acceptCandidate_vals output
  set A := acceptCandidate output with hA
  set R := normalizeCategorizationOutput output bs with hR
  -- every bookmark is matched in R, so the final missing-bookmark loop is a no-op
  have hpres := normalize_presence output bs hB
  have hnoop : addMissing R bs = R := addMissing_noop R bs (fun b hb => by
    rcases hpres b hb with h1 | h2
    · exact Or.inl (hR ▸ h1)
    · exact Or.inr (hR ▸ h2))
  -- it remains to show: ensureOther (acceptCandidate (mappingToJson R)) = R
  suffices hsuff : ensureOther (acceptCandidate (mappingToJson R)) = R by
    show addMissing (ensureOther (acceptCandidate (mappingToJson R))) bs = R
    rw [hsuff, hnoop]
  by_cases hoth : "Other" ∈ A.map Prod.fst
  · -- the candidate already provided an Other category
    have hens : ensureOther A = A := ensureOther_of_mem hoth
    rcases other_decomp hAnd hoth with ⟨a1, m, a2, hdec, h1, h2⟩
    have hm : ("Other", m) ∈ A := by rw [hdec]; simp
    have hmne : m ≠ [] := (hAvals _ hm).1
    have hmnd : (m.map Prod.fst).Nodup := (hAvals _ hm).2
    have hne1 : ∀ c ∈ a1, c.1 ≠ "Other" := by
      intro c hc hco
      exact h1 (hco ▸ List.mem_map_of_mem Prod.fst hc)
    have hne2 : ∀ c ∈ a2, c.1 ≠ "Other" := by
      intro c hc hco
      exact h2 (hco ▸ List.mem_map_of_mem Prod.fst hc)
    have hshape : R = a1 ++ ("Other",
        gOther (presentUrls (ensureOther A)) (presentTitles (ensureOther A)) bs m) :: a2 := by
      show addMissing (ensureOther A) bs = _
      unfold addMissing
      rw [hens, hdec]
      exact foldAM_shape bs a1 a2 m hne1 hne2
    set m2 := gOther (presentUrls (ensureOther A)) (presentTitles (ensureOther A)) bs m with hm2
    have hm2ne : m2 ≠ [] := fun hnil => hmne (gOther_eq_nil bs m hnil)
    have hRkeys : R.map Prod.fst = A.map Prod.fst := by
      rw [hshape, hdec]
      simp
    have hRnd : (R.map Prod.fst).Nodup := hRkeys ▸ hAnd
    have hRvals : ∀ c ∈ R, c.2 ≠ [] ∧ (c.2.map Prod.fst).Nodup := by
      intro c hc
      rw [hshape] at hc
      rcases List.mem_append.mp hc with hc1 | hc2
      · exact hAvals c (by rw [hdec]; exact List.mem_append.mpr (Or.inl hc1))
      · rcases List.mem_cons.mp hc2 with rfl | hc3
        · exact ⟨hm2ne, gOther_keys_nodup bs m hmnd⟩
        · exact hAvals c (by rw [hdec]; exact List.mem_append.mpr (Or.inr (List.mem_cons_of_mem _ hc3)))
    have haccept : acceptCandidate (mappingToJson R) = R := by
      rw [accept_toJson R hRnd (fun c hc => (hRvals c hc).2)]
      apply List.filter_eq_self.mpr
      intro c hc
      simp [List.isEmpty_iff, (hRvals c hc).1]
    rw [haccept]
    apply ensureOther_of_mem
    rw [hshape]
    simp
  · -- Other was appended (empty) at the end
    have hens : ensureOther A = A ++ [("Other", [])] := ensureOther_of_not_mem hoth
    have hne1 : ∀ c ∈ A, c.1 ≠ "Other" := by
      intro c hc hco
      exact hoth (hco ▸ List.mem_map_of_mem Prod.fst hc)
    have hshape : R = A ++ ("Other",
        gOther (presentUrls (ensureOther A)) (presentTitles (ensureOther A)) bs []) :: [] := by
      show addMissing (ensureOther A) bs = _
      unfold addMissing
      rw [hens]
      have : A ++ [("Other", ([] : CatMap))] = A ++ ("Other", ([] : CatMap)) :: [] := rfl
      rw [this]
      exact foldAM_shape bs A [] [] hne1 (by simp)
    set m2 := gOther (presentUrls (ensureOther A)) (presentTitles (ensureOther A)) bs [] with hm2
    have hRnd : (R.map Prod.fst).Nodup := by
      rw [hshape]
      simp only [List.map_append, List.map_cons, List.map_nil]
      rw [List.nodup_append]
      refine ⟨hAnd, by simp, ?_⟩
      intro a ha
      rcases List.mem_map.mp ha with ⟨c, hc, rfl⟩
      intro hmem
      simp only [List.mem_cons, List.not_mem_nil, or_false] at hmem
      exact hne1 c hc hmem
    have hRvals : ∀ c ∈ R, (c.2.map Prod.fst).Nodup := by
      intro c hc
      rw [hshape] at hc
      rcases List.mem_append.mp hc with hc1 | hc2
      · exact (hAvals c hc1).2
      · rcases List.mem_cons.mp hc2 with rfl | hc3
        · exact gOther_keys_nodup bs [] (by simp)
        · exact absurd hc3 (List.not_mem_nil c)
    have haccept : acceptCandidate (mappingToJson R) =
        A ++ List.filter (fun c => !c.2.isEmpty) [("Other", m2)] := by
      rw [accept_toJson R hRnd hRvals, hshape]
      rw [List.filter_append]
      congr 1
      apply List.filter_eq_self.mpr
      intro c hc
      simp [List.isEmpty_iff, (hAvals c hc).1]
    by_cases hm2e : m2 = []
    · rw [haccept]
      rw [hm2e]
      simp only [List.filter_cons, List.filter_nil]
      norm_num
      rw [ensureOther_of_not_mem hoth, hshape, hm2e]
    · rw [haccept]
      have : List.filter (fun c => !c.2.isEmpty) [("Other", m2)] = [("Other", m2)] := by
        apply List.filter_eq_self.mpr
        intro c hc
        simp only [List.mem_cons, List.not_mem_nil, or_false] at hc
        subst hc
        simp [List.isEmpty_iff, hm2e]
      rw [this]
      have hmem : "Other" ∈ (A ++ [("Other", m2)]).map Prod.fst := by
        simp
      rw [ensureOther_of_mem hmem, hshape]

/-! ## Helper lemmas for trees and stacks -/

mutual
theorem restore_snapshot (t : BTree) (h : wfTree t = true) :
    restoreNode (snapshotNode t) = t := by
  match t with
  | BTree.leaf a u =>
    have hu : ¬(u = "") := by simpa [wfTree] using h
    simp [snapshotNode, restoreNode, hu]
  | BTree.folder a cs =>
    have hcs : wfList cs = true := by simpa [wfTree] using h
    simp [snapshotNode, restoreNode, restore_snapshot_list cs hcs]

theorem restore_snapshot_list (cs : List BTree) (h : wfList cs = true) :
    restoreList (snapshotList cs) = cs := by
  match cs with
  | [] => rfl
  | c :: cs =>
    have h1 : wfTree c = true := by
      simp [wfList] at h
      exact h.1
    have h2 : wfList cs = true := by
      simp [wfList] at h
      exact h.2
    simp [snapshotList, restoreList, restore_snapshot c h1, restore_snapshot_list cs h2]
end

theorem foldl_append_map {α β : Type} (f : α → β) :
    ∀ (l : List α) (acc : List β), l.foldl (fun a e => a ++ [f e]) acc = acc ++ l.map f := by
  intro l
  induction l with
  | nil => intro acc; simp
  | cons e l ih => intro acc; rw [List.foldl_cons, ih, List.map_cons]; simp

theorem recreateCategories_eq (mapping : CategoryMapping) (bar : List BTree) :
    recreateCategories mapping bar =
      bar ++ mapping.map (fun c => BTree.folder c.1 (c.2.map (fun e => BTree.leaf e.1 e.2))) := by
  unfold recreateCategories
  induction mapping generalizing bar with
  | nil => simp
  | cons c m ih =>
    rw [List.foldl_cons, ih, List.map_cons]
    rw [foldl_append_map (fun e => BTree.leaf e.1 e.2) c.2 []]
    simp

theorem stackStep_preserves (i : String) (s : URState) (o : StackOp)
    (hop : opAddsId o i = false)
    (h1 : i ∉ s.undoStack.map UFrame.id) (h2 : i ∉ s.redoStack.map UFrame.id) :
    i ∉ (stackStep s o).undoStack.map UFrame.id ∧
    i ∉ (stackStep s o).redoStack.map UFrame.id := by
  obtain ⟨su, sr⟩ := s
  match o with
  | StackOp.add f =>
    have hf : f.id ≠ i := by simpa [opAddsId] using hop
    refine ⟨?_, by simp [stackStep, addUndoFrame]⟩
    show i ∉ (f :: su.take 49).map UFrame.id
    intro hmem
    rcases List.mem_map.mp hmem with ⟨x, hx, hxid⟩
    rcases List.mem_cons.mp hx with rfl | hx2
    · exact hf hxid
    · exact h1 (List.mem_map.mpr ⟨x, List.take_subset _ _ hx2, hxid⟩)
  | StackOp.undo ok =>
    match su, h1 with
    | [], h1 => exact ⟨h1, h2⟩
    | f :: rest, h1 =>
      match ok with
      | false => exact ⟨h1, h2⟩
      | true =>
        simp only [stackStep]
        constructor
        · intro hmem
          rcases List.mem_map.mp hmem with ⟨x, hx, hxid⟩
          exact h1 (List.mem_map.mpr ⟨x, List.mem_cons_of_mem _ hx, hxid⟩)
        · intro hmem
          rcases List.mem_map.mp hmem with ⟨x, hx, hxid⟩
          rcases List.mem_cons.mp hx with rfl | hx2
          · exact h1 (List.mem_map.mpr ⟨x, List.mem_cons_self _ _, hxid⟩)
          · exact h2 (List.mem_map.mpr ⟨x, hx2, hxid⟩)
  | StackOp.redo ok =>
    match sr, h2 with
    | [], h2 => exact ⟨h1, h2⟩
    | f :: rest, h2 =>
      match ok with
      | false => exact ⟨h1, h2⟩
      | true =>
        simp only [stackStep]
        constructor
        · intro hmem
          rcases List.mem_map.mp hmem with ⟨x, hx, hxid⟩
          rcases List.mem_cons.mp hx with rfl | hx2
          · exact h2 (List.mem_map.mpr ⟨x, List.mem_cons_self _ _, hxid⟩)
          · exact h1 (List.mem_map.mpr ⟨x, hx2, hxid⟩)
        · intro hmem
          rcases List.mem_map.mp hmem with ⟨x, hx, hxid⟩
          exact h2 (List.mem_map.mpr ⟨x, List.mem_cons_of_mem _ hx, hxid⟩)

theorem evicted_unreachable (i : String) :
    ∀ (ops : List StackOp) (s : URState),
      (∀ o ∈ ops, opAddsId o i = false) →
      i ∉ s.undoStack.map UFrame.id → i ∉ s.redoStack.map UFrame.id →
      i ∉ (runOps s ops).undoStack.map UFrame.id ∧
      i ∉ (runOps s ops).redoStack.map UFrame.id := by
  intro ops
  induction ops with
  | nil => intro s _ h1 h2; exact ⟨h1, h2⟩
  | cons o ops ih =>
    intro s hops h1 h2
    have hstep := stackStep_preserves i s o (hops o (List.mem_cons_self _ _)) h1 h2
    exact ih (stackStep s o) (fun x hx => hops x (List.mem_cons_of_mem _ hx)) hstep.1 hstep.2

/-! ### Sanitizer lemmas (C7, C8) -/

theorem firstTopOpenD_zero : ∀ (s : List Char) (i : Nat),
    firstTopOpenD s i 0 = firstOpenIdx s i := by
  intro s
  induction s with
  | nil => intro i; rfl
  | cons c rest ih =>
    intro i
    by_cases h1 : c = Char.ofNat 123
    · simp [firstTopOpenD, firstOpenIdx, h1]
    · by_cases h2 : c = Char.ofNat 125
      · simp [firstTopOpenD, firstOpenIdx, h1, h2, ih]
      · simp [firstTopOpenD, firstOpenIdx, h1, h2, ih]

theorem scanGo_fst_some : ∀ (s : List Char) (i depth : Nat) (x : Nat) (be : Option Nat),
    (scanGo s i depth (some x) be).1 = some x := by
  intro s
  induction s with
  | nil => intro i depth x be; rfl
  | cons c rest ih =>
    intro i depth x be
    by_cases h1 : c = Char.ofNat 123
    · rw [show scanGo (c :: rest) i depth (some x) be =
          scanGo rest (i+1) (depth+1) (if depth = 0 ∧ (some x : Option Nat) = none then some i else some x) be by
        simp [scanGo, h1]]
      rw [if_neg (by simp)]
      exact ih _ _ _ _
    · by_cases h2 : c = Char.ofNat 125
      · by_cases hd0 : depth = 0
        · subst hd0
          rw [show scanGo (c :: rest) i 0 (some x) be = scanGo rest (i+1) 0 (some x) be by
            simp [scanGo, h1, h2]]
          exact ih _ _ _ _
        · by_cases hd1 : depth = 1
          · subst hd1
            rw [show scanGo (c :: rest) i 1 (some x) be = scanGo rest (i+1) 0 (some x) (some i) by
              simp [scanGo, h1, h2]]
            exact ih _ _ _ _
          · rw [show scanGo (c :: rest) i depth (some x) be =
                scanGo rest (i+1) (depth - 1) (some x) be by
              simp [scanGo, h1, h2, hd0, hd1]]
            exact ih _ _ _ _
      · rw [show scanGo (c :: rest) i depth (some x) be = scanGo rest (i+1) depth (some x) be by
          simp [scanGo, h1, h2]]
        exact ih _ _ _ _

theorem scanGo_fst_none : ∀ (s : List Char) (i depth : Nat) (be : Option Nat),
    (scanGo s i depth none be).1 = firstTopOpenD s i depth := by
  intro s
  induction s with
  | nil => intro i depth be; rfl
  | cons c rest ih =>
    intro i depth be
    by_cases h1 : c = Char.ofNat 123
    · by_cases hd : depth = 0
      · subst hd
        rw [show scanGo (c :: rest) i 0 none be = scanGo rest (i+1) 1 (some i) be by
          simp [scanGo, h1]]
        rw [scanGo_fst_some]
        simp [firstTopOpenD, h1]
      · rw [show scanGo (c :: rest) i depth none be = scanGo rest (i+1) (depth+1) none be by
          simp [scanGo, h1, hd]]
        rw [ih]
        simp [firstTopOpenD, h1, hd]
    · by_cases h2 : c = Char.ofNat 125
      · by_cases hd0 : depth = 0
        · subst hd0
          rw [show scanGo (c :: rest) i 0 none be = scanGo rest (i+1) 0 none be by
            simp [scanGo, h1, h2]]
          rw [ih]
          simp [firstTopOpenD, h1, h2]
        · by_cases hd1 : depth = 1
          · subst hd1
            rw [show scanGo (c :: rest) i 1 none be = scanGo rest (i+1) 0 none (some i) by
              simp [scanGo, h1, h2]]
            rw [ih]
            simp [firstTopOpenD, h1, h2]
          · rw [show scanGo (c :: rest) i depth none be =
                scanGo rest (i+1) (depth - 1) none be by
              simp [scanGo, h1, h2, hd0, hd1]]
            rw [ih]
            simp [firstTopOpenD, h1, h2, hd0]
      · rw [show scanGo (c :: rest) i depth none be = scanGo rest (i+1) depth none be by
          simp [scanGo, h1, h2]]
        rw [ih]
        simp [firstTopOpenD, h1, h2]

theorem scanGo_snd : ∀ (s : List Char) (i depth : Nat) (bs be : Option Nat),
    (scanGo s i depth bs be).2 =
      (match (zeroReturns s i depth).getLast? with | some j => some j | none => be) := by
  intro s
  induction s with
  | nil => intro i depth bs be; rfl
  | cons c rest ih =>
    intro i depth bs be
    by_cases h1 : c = Char.ofNat 123
    · rw [show scanGo (c :: rest) i depth bs be =
          scanGo rest (i+1) (depth+1) (if depth = 0 ∧ bs = none then some i else bs) be by
        simp [scanGo, h1]]
      rw [ih]
      simp [zeroReturns, h1]
    · by_cases h2 : c = Char.ofNat 125
      · by_cases hd0 : depth = 0
        · subst hd0
          rw [show scanGo (c :: rest) i 0 bs be = scanGo rest (i+1) 0 bs be by
            simp [scanGo, h1, h2]]
          rw [ih]
          simp [zeroReturns, h1, h2]
        · by_cases hd1 : depth = 1
          · subst hd1
            rw [show scanGo (c :: rest) i 1 bs be = scanGo rest (i+1) 0 bs (some i) by
              simp [scanGo, h1, h2]]
            rw [ih]
            rw [show zeroReturns (c :: rest) i 1 = i :: zeroReturns rest (i+1) 0 by
              simp [zeroReturns, h1, h2]]
            rw [List.getLast?_cons]
            match hz : (zeroReturns rest (i+1) 0).getLast? with
            | some j => simp [hz]
            | none => simp [hz]
          · rw [show scanGo (c :: rest) i depth bs be =
                scanGo rest (i+1) (depth - 1) bs be by
              simp [scanGo, h1, h2, hd0, hd1]]
            rw [ih]
            simp [zeroReturns, h1, h2, hd1]
      · rw [show scanGo (c :: rest) i depth bs be = scanGo rest (i+1) depth bs be by
          simp [scanGo, h1, h2]]
        rw [ih]
        simp [zeroReturns, h1, h2]

theorem scanBal_char (s : List Char) :
    scanBal s = (firstOpenIdx s 0, (zeroReturns s 0 0).getLast?) := by
  unfold scanBal
  have h1 := scanGo_fst_none s 0 0 none
  have h2 := scanGo_snd s 0 0 none none
  rw [firstTopOpenD_zero] at h1
  match hsc : scanGo s 0 0 none none with
  | (a, b) =>
    rw [hsc] at h1 h2
    simp only at h1 h2
    rw [h1]
    rw [h2]
    match hz : (zeroReturns s 0 0).getLast? with
    | some j => rfl
    | none => rfl

theorem stripRun_passthru : ∀ (a b : List Char), (∀ c ∈ a, ¬(c = ',')) →
    stripTCRun false (a ++ b) = a ++ stripTCRun false b := by
  intro a
  induction a with
  | nil => intro b _; rfl
  | cons c a ih =>
    intro b h
    have hc : ¬(c = ',') := h c (List.mem_cons_self _ _)
    show stripTCRun false (c :: (a ++ b)) = c :: (a ++ stripTCRun false b)
    rw [show stripTCRun false (c :: (a ++ b)) = c :: stripTCRun false (a ++ b) by
      simp [stripTCRun, hc]]
    rw [ih b (fun x hx => h x (List.mem_cons_of_mem _ hx))]

theorem renderVal_ne_nil (tc : Bool) (v : JsonVal) : renderVal tc v ≠ [] := by
  match v with
  | JsonVal.str s => simp [renderVal]
  | JsonVal.bool true => simp [renderVal]
  | JsonVal.bool false => simp [renderVal]
  | JsonVal.null => simp [renderVal]
  | JsonVal.arr vs => simp [renderVal]
  | JsonVal.obj ms => simp [renderVal]

-- the first character of a rendering is never whitespace, a closer, or a comma
theorem renderVal_head (tc : Bool) (v : JsonVal) :
    ∃ c cs, renderVal tc v = c :: cs ∧ isWsChar c = false ∧ ¬(c = Char.ofNat 125) ∧
      ¬(c = ']') ∧ ¬(c = ',') := by
  match v with
  | JsonVal.str s => exact ⟨'"', _, rfl, by decide, by decide, by decide, by decide⟩
  | JsonVal.bool true => exact ⟨'t', _, rfl, by decide, by decide, by decide, by decide⟩
  | JsonVal.bool false => exact ⟨'f', _, rfl, by decide, by decide, by decide, by decide⟩
  | JsonVal.null => exact ⟨'n', _, rfl, by decide, by decide, by decide, by decide⟩
  | JsonVal.arr vs => exact ⟨'[', _, rfl, by decide, by decide, by decide, by decide⟩
  | JsonVal.obj ms => exact ⟨Char.ofNat 123, _, rfl, by decide, by decide, by decide, by decide⟩

theorem plain_no_comma {cs : List Char} (h : cs.all plainChar = true) :
    ∀ c ∈ cs, ¬(c = ',') := by
  intro c hc hcc
  subst hcc
  exact absurd ((List.all_eq_true.mp h) _ hc) (by decide)

theorem plainMembers_cons {m : String × JsonVal} {ms : List (String × JsonVal)}
    (h : plainMembers (m :: ms) = true) :
    plainStr m.1 = true ∧ plainVal m.2 = true ∧ plainMembers ms = true := by
  unfold plainMembers at h
  rw [Bool.and_eq_true, Bool.and_eq_true] at h
  exact ⟨h.1.1, h.1.2, h.2⟩

theorem plainItems_cons {v : JsonVal} {vs : List JsonVal}
    (h : plainItems (v :: vs) = true) :
    plainVal v = true ∧ plainItems vs = true := by
  unfold plainItems at h
  rw [Bool.and_eq_true] at h
  exact h

theorem plainVal_obj {ms : List (String × JsonVal)} (h : plainVal (JsonVal.obj ms) = true) :
    nodupKeysB (ms.map Prod.fst) = true ∧ plainMembers ms = true := by
  unfold plainVal at h
  rw [Bool.and_eq_true] at h
  exact h

theorem plainVal_arr {vs : List JsonVal} (h : plainVal (JsonVal.arr vs) = true) :
    plainItems vs = true := by
  unfold plainVal at h
  exact h

theorem key_prefix_no_comma {k : String} (h : plainStr k = true) :
    ∀ c ∈ ('"' :: k.data ++ ['"', ':']), ¬(c = ',') := by
  intro c hc hcc
  subst hcc
  simp at hc
  exact absurd ((List.all_eq_true.mp h) _ hc) (by decide)

theorem stripRun_comma_closer (b : Char) (rest : List Char)
    (hb : b = Char.ofNat 125 ∨ b = ']') :
    stripTCRun false (',' :: b :: rest) = b :: stripTCRun false rest := by
  have hbws : isWsChar b = false := by
    rcases hb with rfl | rfl <;> decide
  have hbc : (b = Char.ofNat 125 || b = ']') = true := by
    rcases hb with rfl | rfl <;> simp
  rw [show stripTCRun false (',' :: b :: rest) = stripTCRun true (b :: rest) by
    simp [stripTCRun, List.dropWhile, hbws, hbc]]
  simp [stripTCRun, hbws]

theorem stripRun_comma_other (c0 : Char) (ys : List Char)
    (h0 : isWsChar c0 = false) (hc : ¬(c0 = Char.ofNat 125)) (hc2 : ¬(c0 = ']')) :
    stripTCRun false (',' :: c0 :: ys) = ',' :: stripTCRun false (c0 :: ys) := by
  simp [stripTCRun, List.dropWhile, h0, hc, hc2]

theorem renderMembers_head (tc : Bool) (ms : List (String × JsonVal)) (h : ms ≠ []) :
    ∃ cs, renderMembers tc ms = '"' :: cs := by
  match ms with
  | [] => exact absurd rfl h
  | [m] => exact ⟨_, rfl⟩
  | m :: m2 :: ms => exact ⟨_, rfl⟩

theorem renderItems_head (tc : Bool) (v2 : JsonVal) (vs2 : List JsonVal)
    (c0 : Char) (cs : List Char) (hc0 : renderVal tc v2 = c0 :: cs) :
    ∃ cs2, renderItems tc (v2 :: vs2) = c0 :: cs2 := by
  match vs2 with
  | [] =>
    refine ⟨cs, ?_⟩
    show renderVal tc v2 = c0 :: cs
    exact hc0
  | w :: ws =>
    refine ⟨cs ++ ',' :: renderItems tc (w :: ws), ?_⟩
    show renderVal tc v2 ++ ',' :: renderItems tc (w :: ws) = _
    rw [hc0]
    rfl

mutual
theorem stripRenderVal (tc : Bool) : ∀ (v : JsonVal), plainVal v = true →
    ∀ (rest : List Char),
    stripTCRun false (renderVal tc v ++ rest) = renderVal false v ++ stripTCRun false rest := by
  intro v hv rest
  match v with
  | JsonVal.str s =>
    show stripTCRun false (('"' :: (s.data ++ ['"'])) ++ rest) = _
    have hnc : ∀ c ∈ '"' :: (s.data ++ ['"']), ¬(c = ',') := by
      intro c hc hcc
      subst hcc
      simp at hc
      exact absurd ((List.all_eq_true.mp (show plainStr s = true from hv)) _ hc) (by decide)
    rw [stripRun_passthru _ rest hnc]
    rfl
  | JsonVal.bool true =>
    rw [show renderVal tc (JsonVal.bool true) = ['t','r','u','e'] from rfl]
    rw [stripRun_passthru _ rest (by decide)]
    rfl
  | JsonVal.bool false =>
    rw [show renderVal tc (JsonVal.bool false) = ['f','a','l','s','e'] from rfl]
    rw [stripRun_passthru _ rest (by decide)]
    rfl
  | JsonVal.null =>
    rw [show renderVal tc JsonVal.null = ['n','u','l','l'] from rfl]
    rw [stripRun_passthru _ rest (by decide)]
    rfl
  | JsonVal.obj ms =>
    have hm : plainMembers ms = true := (plainVal_obj hv).2
    show stripTCRun false ((Char.ofNat 123 ::
        (renderMembers tc ms ++ (if tc && !ms.isEmpty then [','] else []) ++ [Char.ofNat 125])) ++ rest) = _
    rw [show (Char.ofNat 123 ::
        (renderMembers tc ms ++ (if tc && !ms.isEmpty then [','] else []) ++ [Char.ofNat 125])) ++ rest =
        Char.ofNat 123 :: (renderMembers tc ms ++
          ((if tc && !ms.isEmpty then [','] else []) ++ Char.ofNat 125 :: rest)) by
      simp]
    rw [show stripTCRun false (Char.ofNat 123 :: (renderMembers tc ms ++
          ((if tc && !ms.isEmpty then [','] else []) ++ Char.ofNat 125 :: rest))) =
        Char.ofNat 123 :: stripTCRun false (renderMembers tc ms ++
          ((if tc && !ms.isEmpty then [','] else []) ++ Char.ofNat 125 :: rest)) by
      simp [stripTCRun]]
    rw [stripRenderMembers tc ms hm _]
    have htail : stripTCRun false ((if tc && !ms.isEmpty then [','] else []) ++ Char.ofNat 125 :: rest) =
        Char.ofNat 125 :: stripTCRun false rest := by
      by_cases hcond : (tc && !ms.isEmpty) = true
      · rw [if_pos hcond]
        exact stripRun_comma_closer _ rest (Or.inl rfl)
      · rw [if_neg hcond]
        show stripTCRun false (Char.ofNat 125 :: rest) = _
        simp [stripTCRun]
    rw [htail]
    show _ = Char.ofNat 123 :: (renderMembers false ms ++ [] ++ [Char.ofNat 125]) ++ stripTCRun false rest
    simp
  | JsonVal.arr vs =>
    have hm : plainItems vs = true := plainVal_arr hv
    show stripTCRun false (('[' ::
        (renderItems tc vs ++ (if tc && !vs.isEmpty then [','] else []) ++ [']'])) ++ rest) = _
    rw [show ('[' ::
        (renderItems tc vs ++ (if tc && !vs.isEmpty then [','] else []) ++ [']'])) ++ rest =
        '[' :: (renderItems tc vs ++
          ((if tc && !vs.isEmpty then [','] else []) ++ ']' :: rest)) by
      simp]
    rw [show stripTCRun false ('[' :: (renderItems tc vs ++
          ((if tc && !vs.isEmpty then [','] else []) ++ ']' :: rest))) =
        '[' :: stripTCRun false (renderItems tc vs ++
          ((if tc && !vs.isEmpty then [','] else []) ++ ']' :: rest)) by
      simp [stripTCRun]]
    rw [stripRenderItems tc vs hm _]
    have htail : stripTCRun false ((if tc && !vs.isEmpty then [','] else []) ++ ']' :: rest) =
        ']' :: stripTCRun false rest := by
      by_cases hcond : (tc && !vs.isEmpty) = true
      · rw [if_pos hcond]
        exact stripRun_comma_closer _ rest (Or.inr rfl)
      · rw [if_neg hcond]
        show stripTCRun false (']' :: rest) = _
        simp [stripTCRun]
    rw [htail]
    show _ = '[' :: (renderItems false vs ++ [] ++ [']']) ++ stripTCRun false rest
    simp

theorem stripRenderMembers (tc : Bool) : ∀ (ms : List (String × JsonVal)),
    plainMembers ms = true → ∀ (rest : List Char),
    stripTCRun false (renderMembers tc ms ++ rest) =
      renderMembers false ms ++ stripTCRun false rest := by
  intro ms hm rest
  match ms with
  | [] => rfl
  | [m] =>
    obtain ⟨h1, h2, _⟩ := plainMembers_cons hm
    show stripTCRun false (('"' :: (m.1.data ++ '"' :: ':' :: renderVal tc m.2)) ++ rest) = _
    rw [show ('"' :: (m.1.data ++ '"' :: ':' :: renderVal tc m.2)) ++ rest =
        ('"' :: m.1.data ++ ['"', ':']) ++ (renderVal tc m.2 ++ rest) by simp]
    rw [stripRun_passthru _ _ (key_prefix_no_comma h1)]
    rw [stripRenderVal tc m.2 h2 rest]
    show _ = ('"' :: (m.1.data ++ '"' :: ':' :: renderVal false m.2)) ++ stripTCRun false rest
    simp
  | m :: m2 :: ms2 =>
    obtain ⟨h1, h2, h3⟩ := plainMembers_cons hm
    show stripTCRun false (('"' :: (m.1.data ++ '"' :: ':' ::
        (renderVal tc m.2 ++ ',' :: renderMembers tc (m2 :: ms2)))) ++ rest) = _
    rw [show ('"' :: (m.1.data ++ '"' :: ':' ::
        (renderVal tc m.2 ++ ',' :: renderMembers tc (m2 :: ms2)))) ++ rest =
        ('"' :: m.1.data ++ ['"', ':']) ++
          (renderVal tc m.2 ++ (',' :: (renderMembers tc (m2 :: ms2) ++ rest))) by simp]
    rw [stripRun_passthru _ _ (key_prefix_no_comma h1)]
    rw [stripRenderVal tc m.2 h2 _]
    rcases renderMembers_head tc (m2 :: ms2) (by simp) with ⟨cs, hcs⟩
    rw [show renderMembers tc (m2 :: ms2) ++ rest = '"' :: (cs ++ rest) by rw [hcs]; simp]
    rw [stripRun_comma_other '"' (cs ++ rest) (by decide) (by decide) (by decide)]
    rw [show ('"' : Char) :: (cs ++ rest) = renderMembers tc (m2 :: ms2) ++ rest by rw [hcs]; simp]
    rw [stripRenderMembers tc (m2 :: ms2) h3 rest]
    show _ = ('"' :: (m.1.data ++ '"' :: ':' ::
        (renderVal false m.2 ++ ',' :: renderMembers false (m2 :: ms2)))) ++ stripTCRun false rest
    simp

theorem stripRenderItems (tc : Bool) : ∀ (vs : List JsonVal), plainItems vs = true →
    ∀ (rest : List Char),
    stripTCRun false (renderItems tc vs ++ rest) =
      renderItems false vs ++ stripTCRun false rest := by
  intro vs hv rest
  match vs with
  | [] => rfl
  | [v] =>
    have h2 : plainVal v = true := (plainItems_cons hv).1
    show stripTCRun false (renderVal tc v ++ rest) = _
    rw [stripRenderVal tc v h2 rest]
    rfl
  | v :: v2 :: vs2 =>
    obtain ⟨h2, h3⟩ := plainItems_cons hv
    show stripTCRun false ((renderVal tc v ++ ',' :: renderItems tc (v2 :: vs2)) ++ rest) = _
    rw [show (renderVal tc v ++ ',' :: renderItems tc (v2 :: vs2)) ++ rest =
        renderVal tc v ++ (',' :: (renderItems tc (v2 :: vs2) ++ rest)) by simp]
    rw [stripRenderVal tc v h2 _]
    rcases renderVal_head tc v2 with ⟨c0, cs, hc0, hws, hcb, hcb2, _⟩
    rcases renderItems_head tc v2 vs2 c0 cs hc0 with ⟨cs2, hcs2⟩
    rw [show renderItems tc (v2 :: vs2) ++ rest = c0 :: (cs2 ++ rest) by rw [hcs2]; simp]
    rw [stripRun_comma_other c0 (cs2 ++ rest) hws hcb hcb2]
    rw [show c0 :: (cs2 ++ rest) = renderItems tc (v2 :: vs2) ++ rest by rw [hcs2]; simp]
    rw [stripRenderItems tc (v2 :: vs2) h3 rest]
    show _ = (renderVal false v ++ ',' :: renderItems false (v2 :: vs2)) ++ stripTCRun false rest
    simp
end

theorem skipWs_cons {c : Char} (x : List Char) (h : isWsChar c = false) :
    skipWs (c :: x) = c :: x := by
  simp [skipWs, List.dropWhile, h]

theorem string_eta (s : String) : String.mk s.data = s := rfl

theorem plainChar_facts {c : Char} (h : plainChar c = true) :
    ¬(c = '"') ∧ ¬(c = '\\') ∧ ¬(c.toNat < 32) := by
  refine ⟨?_, ?_, ?_⟩
  · intro hc; subst hc; exact absurd h (by decide)
  · intro hc; subst hc; exact absurd h (by decide)
  · intro hc
    have hd : decide (c.toNat < 32) = true := decide_eq_true hc
    unfold plainChar at h
    rw [hd] at h
    simp at h

theorem lexStr_cons (c : Char) (rest : List Char)
    (h1 : ¬(c = '"')) (h2 : ¬(c = '\\')) (h3 : ¬(c.toNat < 32)) :
    lexStr (c :: rest) =
      (match lexStr rest with
       | some (cs, r) => some (c :: cs, r)
       | none => none) := by
  rw [lexStr.eq_def]
  split
  · rename_i heq
    exact absurd heq (by simp)
  · rename_i heq
    injection heq with hc _
    exact absurd hc h1
  · rename_i c2 rest2 heq
    injection heq with hc _
    exact absurd hc h2
  · rename_i heq
    injection heq with hc _
    exact absurd hc h2
  · rename_i c2 rest2 hna hnb hnc heq
    injection heq with hceq hreq
    subst hceq
    subst hreq
    rw [if_neg h3]

theorem lexStr_plain : ∀ (cs : List Char), cs.all plainChar = true → ∀ (rest : List Char),
    lexStr (cs ++ '"' :: rest) = some (cs, rest) := by
  intro cs
  induction cs with
  | nil => intro _ rest; rfl
  | cons c cs ih =>
    intro h rest
    have hc : plainChar c = true := (List.all_eq_true.mp h) c (List.mem_cons_self _ _)
    have hcs : cs.all plainChar = true := by
      rw [List.all_eq_true] at h ⊢
      exact fun x hx => h x (List.mem_cons_of_mem _ hx)
    obtain ⟨h1, h2, h3⟩ := plainChar_facts hc
    show lexStr (c :: (cs ++ '"' :: rest)) = _
    rw [lexStr_cons c _ h1 h2 h3]
    rw [ih hcs rest]

theorem needFuel_pos (v : JsonVal) : 1 ≤ needFuel v := by
  match v with
  | JsonVal.str s => simp [needFuel]
  | JsonVal.bool b => simp [needFuel]
  | JsonVal.null => simp [needFuel]
  | JsonVal.arr vs => simp [needFuel]
  | JsonVal.obj ms => simp [needFuel]

theorem renderMembers_length (tc : Bool) : ∀ (ms : List (String × JsonVal)),
    ms.length ≤ (renderMembers tc ms).length := by
  intro ms
  match ms with
  | [] => simp [renderMembers]
  | [m] => simp [renderMembers]
  | m :: m2 :: ms2 =>
    have ih := renderMembers_length tc (m2 :: ms2)
    show (m :: m2 :: ms2).length ≤ (renderMembers tc (m :: m2 :: ms2)).length
    rw [show renderMembers tc (m :: m2 :: ms2) =
        '"' :: (m.1.data ++ '"' :: ':' :: (renderVal tc m.2 ++ ',' :: renderMembers tc (m2 :: ms2)))
      from rfl]
    simp only [List.length_cons, List.length_append]
    simp at ih ⊢
    omega

theorem renderItems_length (tc : Bool) : ∀ (vs : List JsonVal),
    vs.length ≤ (renderItems tc vs).length := by
  intro vs
  match vs with
  | [] => simp [renderItems]
  | [v] =>
    have := renderVal_ne_nil tc v
    have hpos : 0 < (renderVal tc v).length := List.length_pos.mpr this
    show 1 ≤ (renderItems tc [v]).length
    rw [show renderItems tc [v] = renderVal tc v from rfl]
    omega
  | v :: v2 :: vs2 =>
    have ih := renderItems_length tc (v2 :: vs2)
    show (v :: v2 :: vs2).length ≤ (renderItems tc (v :: v2 :: vs2)).length
    rw [show renderItems tc (v :: v2 :: vs2) =
        renderVal tc v ++ ',' :: renderItems tc (v2 :: vs2) from rfl]
    simp only [List.length_cons, List.length_append]
    simp at ih ⊢
    omega

mutual
theorem parseVal_render : ∀ (v : JsonVal), plainVal v = true →
    ∀ (fuel : Nat) (rest : List Char), needFuel v ≤ fuel →
    parseVal fuel (renderVal false v ++ rest) = some (v, rest) := by
  intro v hv fuel rest hfuel
  match fuel, hfuel with
  | 0, hfuel =>
    exact absurd (Nat.le_trans (needFuel_pos v) hfuel) (by simp)
  | fuel+1, hfuel =>
    match v, hv with
    | JsonVal.str s, hv =>
      rw [show renderVal false (JsonVal.str s) ++ rest = '"' :: (s.data ++ '"' :: rest) by
        show ('"' :: (s.data ++ ['"'])) ++ rest = _
        simp]
      rw [parseVal]
      rw [skipWs_cons _ (by decide)]
      show (match lexStr (s.data ++ '"' :: rest) with
        | some (cs, r) => some (JsonVal.str (String.mk cs), r)
        | none => none) = _
      rw [lexStr_plain s.data hv rest]
    | JsonVal.bool true, hv =>
      show parseVal (fuel+1) ('t' :: 'r' :: 'u' :: 'e' :: rest) = _
      rw [parseVal]
      rw [skipWs_cons _ (by decide)]
      rfl
    | JsonVal.bool false, hv =>
      show parseVal (fuel+1) ('f' :: 'a' :: 'l' :: 's' :: 'e' :: rest) = _
      rw [parseVal]
      rw [skipWs_cons _ (by decide)]
      rfl
    | JsonVal.null, hv =>
      show parseVal (fuel+1) ('n' :: 'u' :: 'l' :: 'l' :: rest) = _
      rw [parseVal]
      rw [skipWs_cons _ (by decide)]
      rfl
    | JsonVal.obj [], hv =>
      show parseVal (fuel+1) ((Char.ofNat 123 :: ([] ++ [] ++ [Char.ofNat 125])) ++ rest) = _
      rw [show (Char.ofNat 123 :: (([] : List Char) ++ [] ++ [Char.ofNat 125])) ++ rest =
          Char.ofNat 123 :: Char.ofNat 125 :: rest by simp]
      rw [parseVal]
      rw [skipWs_cons _ (by decide)]
      show (match skipWs (Char.ofNat 125 :: rest) with
        | Char.ofNat 125 :: r2 => some (JsonVal.obj [], r2)
        | r2 =>
          match membersLoop (parseVal fuel) (r2.length + 1) r2 with
          | some (ms, r3) => some (JsonVal.obj ms, r3)
          | none => none) = _
      rw [skipWs_cons _ (by decide)]
      rfl
    | JsonVal.obj (m :: ms), hv =>
      have hmem : plainMembers (m :: ms) = true := (plainVal_obj hv).2
      have hneed : needMembers (m :: ms) ≤ fuel := by
        have h0 : needFuel (JsonVal.obj (m :: ms)) = 1 + needMembers (m :: ms) := rfl
        omega
      rcases renderMembers_head false (m :: ms) (by simp) with ⟨cs, hcs⟩
      rw [show renderVal false (JsonVal.obj (m :: ms)) ++ rest =
          Char.ofNat 123 :: (renderMembers false (m :: ms) ++ Char.ofNat 125 :: rest) by
        show (Char.ofNat 123 ::
          (renderMembers false (m :: ms) ++ [] ++ [Char.ofNat 125])) ++ rest = _
        simp]
      rw [parseVal]
      rw [skipWs_cons _ (by decide)]
      show (match skipWs (renderMembers false (m :: ms) ++ Char.ofNat 125 :: rest) with
        | Char.ofNat 125 :: r2 => some (JsonVal.obj [], r2)
        | r2 =>
          match membersLoop (parseVal fuel) (r2.length + 1) r2 with
          | some (ms2, r3) => some (JsonVal.obj ms2, r3)
          | none => none) = _
      rw [show renderMembers false (m :: ms) ++ Char.ofNat 125 :: rest =
          '"' :: (cs ++ Char.ofNat 125 :: rest) by rw [hcs]; simp]
      rw [skipWs_cons _ (by decide)]
      show (match membersLoop (parseVal fuel)
          (('"' :: (cs ++ Char.ofNat 125 :: rest)).length + 1)
          ('"' :: (cs ++ Char.ofNat 125 :: rest)) with
        | some (ms2, r3) => some (JsonVal.obj ms2, r3)
        | none => none) = _
      rw [show ('"' : Char) :: (cs ++ Char.ofNat 125 :: rest) =
          renderMembers false (m :: ms) ++ Char.ofNat 125 :: rest by rw [hcs]; simp]
      have hlen : (m :: ms).length ≤
          (renderMembers false (m :: ms) ++ Char.ofNat 125 :: rest).length + 1 := by
        have hrl := renderMembers_length false (m :: ms)
        simp only [List.length_append]
        omega
      rw [membersLoop_render (m :: ms) hmem fuel
          ((renderMembers false (m :: ms) ++ Char.ofNat 125 :: rest).length + 1) rest hneed hlen
          (by simp)]
    | JsonVal.arr [], hv =>
      show parseVal (fuel+1) (('[' :: ([] ++ [] ++ [']'])) ++ rest) = _
      rw [show (('[' : Char) :: (([] : List Char) ++ [] ++ [']'])) ++ rest =
          '[' :: ']' :: rest by simp]
      rw [parseVal]
      rw [skipWs_cons _ (by decide)]
      show (match skipWs (']' :: rest) with
        | ']' :: r2 => some (JsonVal.arr [], r2)
        | r2 =>
          match itemsLoop (parseVal fuel) (r2.length + 1) r2 with
          | some (vs, r3) => some (JsonVal.arr vs, r3)
          | none => none) = _
      rw [skipWs_cons _ (by decide)]
      rfl
    | JsonVal.arr (v1 :: vs), hv =>
      have hmem : plainItems (v1 :: vs) = true := plainVal_arr hv
      have hneed : needItems (v1 :: vs) ≤ fuel := by
        have h0 : needFuel (JsonVal.arr (v1 :: vs)) = 1 + needItems (v1 :: vs) := rfl
        omega
      rcases renderVal_head false v1 with ⟨c0, cs0, hc0, hws0, hcb0, hcb20, hcm0⟩
      rcases renderItems_head false v1 vs c0 cs0 hc0 with ⟨cs2, hcs2⟩
      rw [show renderVal false (JsonVal.arr (v1 :: vs)) ++ rest =
          '[' :: (renderItems false (v1 :: vs) ++ ']' :: rest) by
        show ('[' :: (renderItems false (v1 :: vs) ++ [] ++ [']'])) ++ rest = _
        simp]
      rw [parseVal]
      rw [skipWs_cons _ (by decide)]
      show (match skipWs (renderItems false (v1 :: vs) ++ ']' :: rest) with
        | ']' :: r2 => some (JsonVal.arr [], r2)
        | r2 =>
          match itemsLoop (parseVal fuel) (r2.length + 1) r2 with
          | some (vs2, r3) => some (JsonVal.arr vs2, r3)
          | none => none) = _
      rw [show renderItems false (v1 :: vs) ++ ']' :: rest = c0 :: (cs2 ++ ']' :: rest) by
        rw [hcs2]; simp]
      rw [skipWs_cons _ hws0]
      have hbr : (match c0 :: (cs2 ++ ']' :: rest) with
        | ']' :: r2 => some (JsonVal.arr [], r2)
        | r2 =>
          match itemsLoop (parseVal fuel) (r2.length + 1) r2 with
          | some (vs2, r3) => some (JsonVal.arr vs2, r3)
          | none => none) =
          (match itemsLoop (parseVal fuel) ((c0 :: (cs2 ++ ']' :: rest)).length + 1)
              (c0 :: (cs2 ++ ']' :: rest)) with
            | some (vs2, r3) => some (JsonVal.arr vs2, r3)
            | none => none) := by
        split
        · rename_i heq
          injection heq with h1 _
          exact absurd h1 hcb20
        · rfl
      rw [hbr]
      rw [show c0 :: (cs2 ++ ']' :: rest) = renderItems false (v1 :: vs) ++ ']' :: rest by
        rw [hcs2]; simp]
      have hlen : (v1 :: vs).length ≤
          (renderItems false (v1 :: vs) ++ ']' :: rest).length + 1 := by
        have hrl := renderItems_length false (v1 :: vs)
        simp only [List.length_append]
        omega
      rw [itemsLoop_render (v1 :: vs) hmem fuel
          ((renderItems false (v1 :: vs) ++ ']' :: rest).length + 1) rest hneed hlen
          (by simp)]

theorem membersLoop_render : ∀ (ms : List (String × JsonVal)), plainMembers ms = true →
    ∀ (fuel mf : Nat) (rest : List Char), needMembers ms ≤ fuel → ms.length ≤ mf →
    ms ≠ [] →
    membersLoop (parseVal fuel) mf (renderMembers false ms ++ Char.ofNat 125 :: rest) =
      some (ms, rest) := by
  intro ms hm fuel mf rest hneed hlen hne
  match ms, hne with
  | [m], _ =>
    obtain ⟨h1, h2, _⟩ := plainMembers_cons hm
    have hneedv : needFuel m.2 ≤ fuel := by
      have h0 : needMembers [m] = max (needFuel m.2) (needMembers []) := rfl
      have h3 : needMembers [] = 0 := rfl
      omega
    match mf, hlen with
    | mf+1, _ =>
      rw [show renderMembers false [m] ++ Char.ofNat 125 :: rest =
          '"' :: (m.1.data ++ '"' :: ':' :: (renderVal false m.2 ++ Char.ofNat 125 :: rest)) by
        show ('"' :: (m.1.data ++ '"' :: ':' :: renderVal false m.2)) ++ Char.ofNat 125 :: rest = _
        simp]
      rw [membersLoop]
      rw [skipWs_cons _ (by decide)]
      show (match lexStr (m.1.data ++ '"' :: (':' :: (renderVal false m.2 ++ Char.ofNat 125 :: rest))) with
        | some (k, r1) =>
          match skipWs r1 with
          | ':' :: r2 =>
            match parseVal fuel r2 with
            | some (v, r3) =>
              match skipWs r3 with
              | ',' :: r4 =>
                match membersLoop (parseVal fuel) mf r4 with
                | some (ms2, r5) => some ((String.mk k, v) :: ms2, r5)
                | none => none
              | Char.ofNat 125 :: r4 => some ([(String.mk k, v)], r4)
              | _ => none
            | none => none
          | _ => none
        | none => none) = _
      rw [lexStr_plain m.1.data h1 _]
      show (match skipWs (':' :: (renderVal false m.2 ++ Char.ofNat 125 :: rest)) with
        | ':' :: r2 =>
          match parseVal fuel r2 with
          | some (v, r3) =>
            match skipWs r3 with
            | ',' :: r4 =>
              match membersLoop (parseVal fuel) mf r4 with
              | some (ms2, r5) => some ((String.mk m.1.data, v) :: ms2, r5)
              | none => none
            | Char.ofNat 125 :: r4 => some ([(String.mk m.1.data, v)], r4)
            | _ => none
          | none => none
        | _ => none) = _
      rw [skipWs_cons _ (by decide)]
      show (match parseVal fuel (renderVal false m.2 ++ Char.ofNat 125 :: rest) with
        | some (v, r3) =>
          match skipWs r3 with
          | ',' :: r4 =>
            match membersLoop (parseVal fuel) mf r4 with
            | some (ms2, r5) => some ((String.mk m.1.data, v) :: ms2, r5)
            | none => none
          | Char.ofNat 125 :: r4 => some ([(String.mk m.1.data, v)], r4)
          | _ => none
        | none => none) = _
      rw [parseVal_render m.2 h2 fuel (Char.ofNat 125 :: rest) hneedv]
      show (match skipWs (Char.ofNat 125 :: rest) with
        | ',' :: r4 =>
          match membersLoop (parseVal fuel) mf r4 with
          | some (ms2, r5) => some ((String.mk m.1.data, m.2) :: ms2, r5)
          | none => none
        | Char.ofNat 125 :: r4 => some ([(String.mk m.1.data, m.2)], r4)
        | _ => none) = _
      rw [skipWs_cons _ (by decide)]
      rfl
  | m :: m2 :: ms2, _ =>
    obtain ⟨h1, h2, h3⟩ := plainMembers_cons hm
    have hneedv : needFuel m.2 ≤ fuel := by
      have h0 : needMembers (m :: m2 :: ms2) =
          max (needFuel m.2) (needMembers (m2 :: ms2)) := rfl
      omega
    have hneed2 : needMembers (m2 :: ms2) ≤ fuel := by
      have h0 : needMembers (m :: m2 :: ms2) =
          max (needFuel m.2) (needMembers (m2 :: ms2)) := rfl
      omega
    match mf, hlen with
    | mf+1, hlen =>
      have hlen2 : (m2 :: ms2).length ≤ mf := by
        simp at hlen ⊢
        omega
      rw [show renderMembers false (m :: m2 :: ms2) ++ Char.ofNat 125 :: rest =
          '"' :: (m.1.data ++ '"' :: ':' :: (renderVal false m.2 ++
            (',' :: (renderMembers false (m2 :: ms2) ++ Char.ofNat 125 :: rest)))) by
        show ('"' :: (m.1.data ++ '"' :: ':' ::
          (renderVal false m.2 ++ ',' :: renderMembers false (m2 :: ms2)))) ++
            Char.ofNat 125 :: rest = _
        simp]
      rw [membersLoop]
      rw [skipWs_cons _ (by decide)]
      show (match lexStr (m.1.data ++ '"' :: (':' :: (renderVal false m.2 ++
            (',' :: (renderMembers false (m2 :: ms2) ++ Char.ofNat 125 :: rest))))) with
        | some (k, r1) =>
          match skipWs r1 with
          | ':' :: r2 =>
            match parseVal fuel r2 with
            | some (v, r3) =>
              match skipWs r3 with
              | ',' :: r4 =>
                match membersLoop (parseVal fuel) mf r4 with
                | some (ms3, r5) => some ((String.mk k, v) :: ms3, r5)
                | none => none
              | Char.ofNat 125 :: r4 => some ([(String.mk k, v)], r4)
              | _ => none
            | none => none
          | _ => none
        | none => none) = _
      rw [lexStr_plain m.1.data h1 _]
      show (match skipWs (':' :: (renderVal false m.2 ++
            (',' :: (renderMembers false (m2 :: ms2) ++ Char.ofNat 125 :: rest)))) with
        | ':' :: r2 =>
          match parseVal fuel r2 with
          | some (v, r3) =>
            match skipWs r3 with
            | ',' :: r4 =>
              match membersLoop (parseVal fuel) mf r4 with
              | some (ms3, r5) => some ((String.mk m.1.data, v) :: ms3, r5)
              | none => none
            | Char.ofNat 125 :: r4 => some ([(String.mk m.1.data, v)], r4)
            | _ => none
          | none => none
        | _ => none) = _
      rw [skipWs_cons _ (by decide)]
      show (match parseVal fuel (renderVal false m.2 ++
            (',' :: (renderMembers false (m2 :: ms2) ++ Char.ofNat 125 :: rest))) with
        | some (v, r3) =>
          match skipWs r3 with
          | ',' :: r4 =>
            match membersLoop (parseVal fuel) mf r4 with
            | some (ms3, r5) => some ((String.mk m.1.data, v) :: ms3, r5)
            | none => none
          | Char.ofNat 125 :: r4 => some ([(String.mk m.1.data, v)], r4)
          | _ => none
        | none => none) = _
      rw [parseVal_render m.2 h2 fuel _ hneedv]
      show (match skipWs (',' :: (renderMembers false (m2 :: ms2) ++ Char.ofNat 125 :: rest)) with
        | ',' :: r4 =>
          match membersLoop (parseVal fuel) mf r4 with
          | some (ms3, r5) => some ((String.mk m.1.data, m.2) :: ms3, r5)
          | none => none
        | Char.ofNat 125 :: r4 => some ([(String.mk m.1.data, m.2)], r4)
        | _ => none) = _
      rw [skipWs_cons _ (by decide)]
      show (match membersLoop (parseVal fuel) mf
            (renderMembers false (m2 :: ms2) ++ Char.ofNat 125 :: rest) with
        | some (ms3, r5) => some ((String.mk m.1.data, m.2) :: ms3, r5)
        | none => none) = _
      rw [membersLoop_render (m2 :: ms2) h3 fuel mf rest hneed2 hlen2 (by simp)]

theorem itemsLoop_render : ∀ (vs : List JsonVal), plainItems vs = true →
    ∀ (fuel mf : Nat) (rest : List Char), needItems vs ≤ fuel → vs.length ≤ mf →
    vs ≠ [] →
    itemsLoop (parseVal fuel) mf (renderItems false vs ++ ']' :: rest) =
      some (vs, rest) := by
  intro vs hv fuel mf rest hneed hlen hne
  match vs, hne with
  | [v], _ =>
    have h2 : plainVal v = true := (plainItems_cons hv).1
    have hneedv : needFuel v ≤ fuel := by
      have h0 : needItems [v] = max (needFuel v) (needItems []) := rfl
      have h3 : needItems [] = 0 := rfl
      omega
    match mf, hlen with
    | mf+1, _ =>
      rw [show renderItems false [v] ++ ']' :: rest = renderVal false v ++ ']' :: rest from rfl]
      rw [itemsLoop]
      rw [parseVal_render v h2 fuel (']' :: rest) hneedv]
      show (match skipWs (']' :: rest) with
        | ',' :: r2 =>
          match itemsLoop (parseVal fuel) mf r2 with
          | some (vs2, r3) => some (v :: vs2, r3)
          | none => none
        | ']' :: r2 => some ([v], r2)
        | _ => none) = _
      rw [skipWs_cons _ (by decide)]
      rfl
  | v :: v2 :: vs2, _ =>
    obtain ⟨h2, h3⟩ := plainItems_cons hv
    have hneedv : needFuel v ≤ fuel := by
      have h0 : needItems (v :: v2 :: vs2) = max (needFuel v) (needItems (v2 :: vs2)) := rfl
      omega
    have hneed2 : needItems (v2 :: vs2) ≤ fuel := by
      have h0 : needItems (v :: v2 :: vs2) = max (needFuel v) (needItems (v2 :: vs2)) := rfl
      omega
    match mf, hlen with
    | mf+1, hlen =>
      have hlen2 : (v2 :: vs2).length ≤ mf := by
        simp at hlen ⊢
        omega
      rw [show renderItems false (v :: v2 :: vs2) ++ ']' :: rest =
          renderVal false v ++ (',' :: (renderItems false (v2 :: vs2) ++ ']' :: rest)) by
        show (renderVal false v ++ ',' :: renderItems false (v2 :: vs2)) ++ ']' :: rest = _
        simp]
      rw [itemsLoop]
      rw [parseVal_render v h2 fuel _ hneedv]
      show (match skipWs (',' :: (renderItems false (v2 :: vs2) ++ ']' :: rest)) with
        | ',' :: r2 =>
          match itemsLoop (parseVal fuel) mf r2 with
          | some (vs3, r3) => some (v :: vs3, r3)
          | none => none
        | ']' :: r2 => some ([v], r2)
        | _ => none) = _
      rw [skipWs_cons _ (by decide)]
      show (match itemsLoop (parseVal fuel) mf
            (renderItems false (v2 :: vs2) ++ ']' :: rest) with
        | some (vs3, r3) => some (v :: vs3, r3)
        | none => none) = _
      rw [itemsLoop_render (v2 :: vs2) h3 fuel mf rest hneed2 hlen2 (by simp)]
end

mutual
theorem needFuel_le_len : ∀ (v : JsonVal), needFuel v ≤ (renderVal false v).length := by
  intro v
  match v with
  | JsonVal.str s => simp [needFuel, renderVal]
  | JsonVal.bool true => simp [needFuel, renderVal]
  | JsonVal.bool false => simp [needFuel, renderVal]
  | JsonVal.null => simp [needFuel, renderVal]
  | JsonVal.obj ms =>
    have h := needMembers_le_len ms
    show 1 + needMembers ms ≤ (Char.ofNat 123 ::
      (renderMembers false ms ++ [] ++ [Char.ofNat 125])).length
    simp only [List.length_cons, List.length_append, List.length_nil]
    omega
  | JsonVal.arr vs =>
    have h := needItems_le_len vs
    show 1 + needItems vs ≤ ('[' :: (renderItems false vs ++ [] ++ [']'])).length
    simp only [List.length_cons, List.length_append, List.length_nil]
    omega

theorem needMembers_le_len : ∀ (ms : List (String × JsonVal)),
    needMembers ms ≤ (renderMembers false ms).length := by
  intro ms
  match ms with
  | [] => simp [needMembers, renderMembers]
  | [m] =>
    have h := needFuel_le_len m.2
    show max (needFuel m.2) (needMembers []) ≤
      ('"' :: (m.1.data ++ '"' :: ':' :: renderVal false m.2)).length
    have h0 : needMembers ([] : List (String × JsonVal)) = 0 := rfl
    simp only [List.length_cons, List.length_append, h0]
    omega
  | m :: m2 :: ms2 =>
    have h := needFuel_le_len m.2
    have h2 := needMembers_le_len (m2 :: ms2)
    show max (needFuel m.2) (needMembers (m2 :: ms2)) ≤
      ('"' :: (m.1.data ++ '"' :: ':' ::
        (renderVal false m.2 ++ ',' :: renderMembers false (m2 :: ms2)))).length
    simp only [List.length_cons, List.length_append]
    omega

theorem needItems_le_len : ∀ (vs : List JsonVal),
    needItems vs ≤ (renderItems false vs).length := by
  intro vs
  match vs with
  | [] => simp [needItems, renderItems]
  | [v] =>
    have h := needFuel_le_len v
    show max (needFuel v) (needItems []) ≤ (renderItems false [v]).length
    have h0 : needItems ([] : List JsonVal) = 0 := rfl
    rw [show renderItems false [v] = renderVal false v from rfl]
    omega
  | v :: v2 :: vs2 =>
    have h := needFuel_le_len v
    have h2 := needItems_le_len (v2 :: vs2)
    show max (needFuel v) (needItems (v2 :: vs2)) ≤
      (renderVal false v ++ ',' :: renderItems false (v2 :: vs2)).length
    simp only [List.length_cons, List.length_append]
    omega
end

theorem jsonParse_render (v : JsonVal) (hv : plainVal v = true) (Y : List Char) :
    jsonParse (renderVal false v ++ Y) =
      if (skipWs Y).isEmpty then some v else none := by
  unfold jsonParse
  have hfuel : needFuel v ≤ (renderVal false v ++ Y).length + 1 := by
    have := needFuel_le_len v
    simp only [List.length_append]
    omega
  rw [parseVal_render v hv _ Y hfuel]

theorem tryParse_render (tc : Bool) (v : JsonVal) (hv : plainVal v = true) (X : List Char) :
    tryParse (renderVal tc v ++ X) =
      if (skipWs (stripTCRun false X)).isEmpty then some v else none := by
  show jsonParse (stripTC (renderVal tc v ++ X)) = _
  unfold stripTC
  rw [stripRenderVal tc v hv X]
  exact jsonParse_render v hv _

theorem stageTry_render_obj (tc : Bool) (ms : List (String × JsonVal))
    (hv : plainVal (JsonVal.obj ms) = true) (X : List Char) :
    stageTry (renderVal tc (JsonVal.obj ms) ++ X) =
      if (skipWs (stripTCRun false X)).isEmpty then some (JsonVal.obj ms) else none := by
  unfold stageTry
  rw [tryParse_render tc _ hv X]
  by_cases h : (skipWs (stripTCRun false X)).isEmpty = true
  · rw [if_pos h]
    exact rfl
  · rw [if_neg h]

theorem dropWhile_head_false {p : Char → Bool} {l r : List Char} {c : Char}
    (h : l.dropWhile p = c :: r) : p c = false := by
  have hh := List.head?_dropWhile_not p l
  rw [h] at hh
  simpa using hh

theorem mem_dropWhile {p : Char → Bool} {l : List Char} {c : Char}
    (h : c ∈ l.dropWhile p) : c ∈ l :=
  List.Sublist.mem h (List.dropWhile_sublist p)

theorem mem_trimTail {l : List Char} {c : Char}
    (h : c ∈ (l.reverse.dropWhile isWsChar).reverse) : c ∈ l := by
  have h1 : c ∈ l.reverse.dropWhile isWsChar := by
    have := List.mem_reverse.mpr h
    simpa using this
  exact List.mem_reverse.mp (mem_dropWhile h1)

theorem dropWhile_append_cons (p : Char → Bool) (a : List Char) (c : Char) (r : List Char)
    (hc : p c = false) : (a ++ c :: r).dropWhile p = a.dropWhile p ++ c :: r := by
  rw [List.dropWhile_append]
  by_cases h : (a.dropWhile p).isEmpty = true
  · rw [if_pos h, List.dropWhile_cons, if_neg (by simp [hc]), List.isEmpty_iff.mp h]
    rfl
  · rw [if_neg h]

theorem dropWhile_all (p : Char → Bool) (a : List Char) (h : ∀ c ∈ a, p c = true) :
    a.dropWhile p = [] :=
  List.dropWhile_eq_nil_iff.mpr (fun x hx => by simpa using h x hx)

theorem prose_facts {l : List Char} (h : proseOk l = true) :
    ∀ c ∈ l, ¬(c = Char.ofNat 123) ∧ ¬(c = Char.ofNat 125) ∧ ¬(c = Char.ofNat 96) := by
  intro c hc
  have := List.all_eq_true.mp h c hc
  unfold proseChar at this
  refine ⟨?_, ?_, ?_⟩ <;> intro hcc <;> subst hcc <;> simp at this

theorem splitAtTicks_none : ∀ (l : List Char), (∀ c ∈ l, ¬(c = Char.ofNat 96)) →
    splitAtTicks l = none := by
  intro l
  induction l with
  | nil => intro _; rfl
  | cons c rest ih =>
    intro h
    have hc : ¬(c = Char.ofNat 96) := h c (List.mem_cons_self _ _)
    rw [splitAtTicks.eq_def]
    split
    · rfl
    · rename_i r heq
      injection heq with h1 _
      exact absurd h1 hc
    · rename_i c2 rest2 hne heq
      injection heq with h1 h2
      subst h1
      subst h2
      rw [ih (fun x hx => h x (List.mem_cons_of_mem _ hx))]

theorem splitAtTicks_before : ∀ (a r : List Char), (∀ c ∈ a, ¬(c = Char.ofNat 96)) →
    splitAtTicks (a ++ Char.ofNat 96 :: Char.ofNat 96 :: Char.ofNat 96 :: r) = some (a, r) := by
  intro a
  induction a with
  | nil => intro r _; rfl
  | cons c a2 ih =>
    intro r h
    have hc : ¬(c = Char.ofNat 96) := h c (List.mem_cons_self _ _)
    show splitAtTicks (c :: (a2 ++ _)) = _
    rw [splitAtTicks.eq_def]
    split
    · rename_i heq
      exact absurd heq (by simp)
    · rename_i r2 heq
      injection heq with h1 _
      exact absurd h1 hc
    · rename_i c2 rest2 hne heq
      injection heq with h1 h2
      subst h1
      rw [show rest2 = a2 ++ Char.ofNat 96 :: Char.ofNat 96 :: Char.ofNat 96 :: r from h2.symm]
      rw [ih r (fun x hx => h x (List.mem_cons_of_mem _ hx))]

theorem plainChar_no_tick {c : Char} (h : plainChar c = true) :
    (!(c = Char.ofNat 96)) = true := by
  simp
  intro hc
  subst hc
  exact absurd h (by decide)

mutual
theorem renderVal_ticks (tc : Bool) : ∀ (v : JsonVal), plainVal v = true →
    (renderVal tc v).all (fun c => !(c = Char.ofNat 96)) = true := by
  intro v hv
  match v with
  | JsonVal.str s =>
    have hs : plainStr s = true := hv
    show (('"' :: (s.data ++ ['"'])).all _) = true
    rw [List.all_cons, List.all_append]
    have h1 : s.data.all (fun c => !(c = Char.ofNat 96)) = true :=
      List.all_eq_true.mpr (fun x hx => plainChar_no_tick (List.all_eq_true.mp hs x hx))
    rw [h1]
    rfl
  | JsonVal.bool true => rfl
  | JsonVal.bool false => rfl
  | JsonVal.null => rfl
  | JsonVal.arr vs =>
    have hp : plainItems vs = true := plainVal_arr hv
    show (('[' :: (renderItems tc vs ++ (if tc && !vs.isEmpty then [','] else []) ++ [']'])).all _) = true
    rw [List.all_cons, List.all_append, List.all_append]
    rw [renderItems_ticks tc vs hp]
    have h2 : (if tc && !vs.isEmpty then [','] else []).all
        (fun c => !(c = Char.ofNat 96)) = true := by
      split
      · rfl
      · rfl
    rw [h2]
    rfl
  | JsonVal.obj ms =>
    have hp : plainMembers ms = true := (plainVal_obj hv).2
    show ((Char.ofNat 123 :: (renderMembers tc ms ++ (if tc && !ms.isEmpty then [','] else []) ++
      [Char.ofNat 125])).all _) = true
    rw [List.all_cons, List.all_append, List.all_append]
    rw [renderMembers_ticks tc ms hp]
    have h2 : (if tc && !ms.isEmpty then [','] else []).all
        (fun c => !(c = Char.ofNat 96)) = true := by
      split
      · rfl
      · rfl
    rw [h2]
    rfl

theorem renderMembers_ticks (tc : Bool) : ∀ (ms : List (String × JsonVal)),
    plainMembers ms = true →
    (renderMembers tc ms).all (fun c => !(c = Char.ofNat 96)) = true := by
  intro ms hm
  match ms with
  | [] => rfl
  | [m] =>
    obtain ⟨hk, hv, _⟩ := plainMembers_cons hm
    show (('"' :: (m.1.data ++ '"' :: ':' :: renderVal tc m.2)).all _) = true
    rw [List.all_cons, List.all_append, List.all_cons, List.all_cons]
    have h1 : m.1.data.all (fun c => !(c = Char.ofNat 96)) = true :=
      List.all_eq_true.mpr (fun x hx => plainChar_no_tick (List.all_eq_true.mp hk x hx))
    rw [h1, renderVal_ticks tc m.2 hv]
    rfl
  | m :: m2 :: ms2 =>
    obtain ⟨hk, hv, hrest⟩ := plainMembers_cons hm
    show (('"' :: (m.1.data ++ '"' :: ':' :: (renderVal tc m.2 ++
      ',' :: renderMembers tc (m2 :: ms2)))).all _) = true
    rw [List.all_cons, List.all_append, List.all_cons, List.all_cons, List.all_append,
      List.all_cons]
    have h1 : m.1.data.all (fun c => !(c = Char.ofNat 96)) = true :=
      List.all_eq_true.mpr (fun x hx => plainChar_no_tick (List.all_eq_true.mp hk x hx))
    rw [h1, renderVal_ticks tc m.2 hv, renderMembers_ticks tc (m2 :: ms2) hrest]
    rfl

theorem renderItems_ticks (tc : Bool) : ∀ (vs : List JsonVal),
    plainItems vs = true →
    (renderItems tc vs).all (fun c => !(c = Char.ofNat 96)) = true := by
  intro vs hvs
  match vs with
  | [] => rfl
  | [v] =>
    obtain ⟨hv, _⟩ := plainItems_cons hvs
    show ((renderVal tc v).all _) = true
    exact renderVal_ticks tc v hv
  | v :: v2 :: vs2 =>
    obtain ⟨hv, hrest⟩ := plainItems_cons hvs
    show ((renderVal tc v ++ ',' :: renderItems tc (v2 :: vs2)).all _) = true
    rw [List.all_append, List.all_cons]
    rw [renderVal_ticks tc v hv, renderItems_ticks tc (v2 :: vs2) hrest]
    rfl
end

theorem renderVal_no_tick (tc : Bool) (v : JsonVal) (hv : plainVal v = true) :
    ∀ c ∈ renderVal tc v, ¬(c = Char.ofNat 96) := by
  intro c hc hcc
  have := List.all_eq_true.mp (renderVal_ticks tc v hv) c hc
  rw [hcc] at this
  simp at this

theorem stripLeadFence_head (c : Char) (r : List Char) (hc : ¬(c = Char.ofNat 96)) :
    stripLeadFence (c :: r) = c :: r := by
  rw [stripLeadFence.eq_def]
  split
  · rename_i c1 c2 c3 c4 rest heq
    injection heq with h1 _
    exact absurd h1 hc
  · rfl

theorem stripLeadFence_fence (r : List Char) :
    stripLeadFence (fenceOpen ++ r) = r.dropWhile isWsChar := by
  show stripLeadFence (Char.ofNat 96 :: Char.ofNat 96 :: Char.ofNat 96 ::
    'j' :: 's' :: 'o' :: 'n' :: '\n' :: r) = _
  rw [stripLeadFence.eq_def]
  split
  · rename_i c1 c2 c3 c4 rest heq
    injection heq with _ heq; injection heq with _ heq; injection heq with _ heq
    injection heq with h1 heq; injection heq with h2 heq; injection heq with h3 heq
    injection heq with h4 heq
    subst h1; subst h2; subst h3; subst h4
    rw [if_pos (by decide)]
    rw [show rest = '\n' :: r from heq.symm]
    rfl
  · rename_i hne
    exact absurd rfl (hne 'j' 's' 'o' 'n' ('\n' :: r))

theorem stripTailFence_of_rev_cons (s : List Char) (c : Char) (r : List Char)
    (h : s.reverse.dropWhile isWsChar = c :: r) (hc : ¬(c = Char.ofNat 96)) :
    stripTailFence s = s := by
  unfold stripTailFence
  rw [h]
  rw [show (match c :: r with
    | Char.ofNat 96 :: Char.ofNat 96 :: Char.ofNat 96 :: rest => rest.reverse
    | _ => s) = s from ?_]
  rw [show (c :: r) = c :: r from rfl]
  split
  · rename_i rest heq
    injection heq with h1 _
    exact absurd h1 hc
  · rfl

theorem stripTailFence_of_rev_nil (s : List Char)
    (h : s.reverse.dropWhile isWsChar = []) : stripTailFence s = s := by
  unfold stripTailFence
  rw [h]

theorem stripTailFence_ticks (s : List Char) (r : List Char)
    (h : s.reverse.dropWhile isWsChar =
      Char.ofNat 96 :: Char.ofNat 96 :: Char.ofNat 96 :: r) :
    stripTailFence s = r.reverse := by
  unfold stripTailFence
  rw [h]
  rfl

theorem trimWs_decomp (a X b : List Char) (c d : Char)
    (hc : isWsChar c = false) (hd : isWsChar d = false) :
    trimWs (a ++ (c :: X ++ [d]) ++ b) =
      a.dropWhile isWsChar ++ (c :: X ++ [d]) ++ (b.reverse.dropWhile isWsChar).reverse := by
  unfold trimWs
  have h1 : (a ++ (c :: X ++ [d]) ++ b).dropWhile isWsChar
      = a.dropWhile isWsChar ++ (c :: (X ++ [d] ++ b)) := by
    rw [List.append_assoc]
    rw [show (c :: X ++ [d]) ++ b = c :: (X ++ [d] ++ b) by simp]
    rw [dropWhile_append_cons _ a c _ hc]
  rw [h1]
  have h2 : (a.dropWhile isWsChar ++ (c :: (X ++ [d] ++ b))).reverse
      = b.reverse ++ (d :: (X.reverse ++ c :: (a.dropWhile isWsChar).reverse)) := by
    simp
  rw [h2]
  rw [dropWhile_append_cons _ b.reverse d _ hd]
  simp [List.append_assoc]

theorem sliceFL_decomp (a X b : List Char)
    (ha : ∀ c ∈ a, ¬(c = Char.ofNat 123)) (hb : ∀ c ∈ b, ¬(c = Char.ofNat 125)) :
    sliceFL (a ++ (Char.ofNat 123 :: X ++ [Char.ofNat 125]) ++ b) =
      some (Char.ofNat 123 :: X ++ [Char.ofNat 125]) := by
  have h1 : (a ++ (Char.ofNat 123 :: X ++ [Char.ofNat 125]) ++ b).dropWhile
      (fun x => !(x = Char.ofNat 123)) =
      Char.ofNat 123 :: (X ++ [Char.ofNat 125] ++ b) := by
    rw [List.append_assoc]
    rw [show (Char.ofNat 123 :: X ++ [Char.ofNat 125]) ++ b =
      Char.ofNat 123 :: (X ++ [Char.ofNat 125] ++ b) by simp]
    rw [dropWhile_append_cons _ a _ _ (by simp)]
    rw [dropWhile_all _ a (fun c hc => by simpa using ha c hc)]
    rfl
  unfold sliceFL
  rw [h1]
  have h2 : (((Char.ofNat 123 :: (X ++ [Char.ofNat 125] ++ b)).reverse.dropWhile
      (fun x => !(x = Char.ofNat 125))).reverse) =
      Char.ofNat 123 :: X ++ [Char.ofNat 125] := by
    rw [show (Char.ofNat 123 :: (X ++ [Char.ofNat 125] ++ b)).reverse =
      b.reverse ++ (Char.ofNat 125 :: (X.reverse ++ [Char.ofNat 123])) by simp]
    rw [dropWhile_append_cons _ b.reverse _ _ (by simp)]
    rw [dropWhile_all _ b.reverse (fun c hc => by
      simpa using hb c (List.mem_reverse.mp hc))]
    simp
  show (match (((Char.ofNat 123 :: (X ++ [Char.ofNat 125] ++ b)).reverse.dropWhile
      (fun x => !(x = Char.ofNat 125))).reverse) with
    | [] => none
    | u => some u) = some (Char.ofNat 123 :: X ++ [Char.ofNat 125])
  rw [h2]
  rfl

theorem stripTCRun_nws : ∀ (l : List Char) (fl : Bool),
    (∃ c ∈ l, isWsChar c = false) → ∃ c ∈ stripTCRun fl l, isWsChar c = false := by
  intro l
  induction l with
  | nil => intro fl h; simp at h
  | cons c rest ih =>
    intro fl h
    match fl with
    | true =>
      by_cases hw : isWsChar c = true
      · rw [show stripTCRun true (c :: rest) = stripTCRun true rest by
          simp [stripTCRun, hw]]
        apply ih
        rcases h with ⟨d, hd, hdw⟩
        rcases List.mem_cons.mp hd with h1 | h1
        · subst h1; rw [hw] at hdw; exact absurd hdw (by decide)
        · exact ⟨d, h1, hdw⟩
      · rw [show stripTCRun true (c :: rest) = c :: stripTCRun false rest by
          simp [stripTCRun, hw]]
        exact ⟨c, List.mem_cons_self _ _, by simpa using hw⟩
    | false =>
      by_cases hc : c = ','
      · subst hc
        rcases hh : (rest.dropWhile isWsChar).head? with _ | b
        · rw [show stripTCRun false (',' :: rest) = ',' :: stripTCRun false rest by
            simp [stripTCRun, hh]]
          exact ⟨',', List.mem_cons_self _ _, by decide⟩
        · by_cases hb : (b = Char.ofNat 125 || b = ']') = true
          · rw [show stripTCRun false (',' :: rest) = stripTCRun true rest by
              simp [stripTCRun, hh, hb]]
            apply ih
            have hbm : b ∈ rest := by
              rcases hd : rest.dropWhile isWsChar with _ | ⟨x, xs⟩
              · rw [hd] at hh; simp at hh
              · rw [hd] at hh
                simp at hh
                subst hh
                exact mem_dropWhile (by rw [hd]; exact List.mem_cons_self _ _)
            have hbw : isWsChar b = false := by
              rcases (by simpa using hb : b = Char.ofNat 125 ∨ b = ']') with rfl | rfl <;> decide
            exact ⟨b, hbm, hbw⟩
          · rw [show stripTCRun false (',' :: rest) = ',' :: stripTCRun false rest by
              simp [stripTCRun, hh, hb]]
            exact ⟨',', List.mem_cons_self _ _, by decide⟩
      · rw [show stripTCRun false (c :: rest) = c :: stripTCRun false rest by
          simp [stripTCRun, hc]]
        by_cases hw : isWsChar c = false
        · exact ⟨c, List.mem_cons_self _ _, hw⟩
        · rcases h with ⟨d, hd, hdw⟩
          rcases List.mem_cons.mp hd with h1 | h1
          · subst h1; exact absurd hdw hw
          · obtain ⟨e, he, hew⟩ := ih false ⟨d, h1, hdw⟩
            exact ⟨e, List.mem_cons_of_mem _ he, hew⟩

theorem skipWs_stripTC_ne (l : List Char) (c : Char) (hc : c ∈ l)
    (hw : isWsChar c = false) :
    (skipWs (stripTCRun false l)).isEmpty = false := by
  obtain ⟨d, hd, hdw⟩ := stripTCRun_nws l false ⟨c, hc, hw⟩
  cases he : (skipWs (stripTCRun false l)).isEmpty
  · rfl
  · exfalso
    have hnil : skipWs (stripTCRun false l) = [] := List.isEmpty_iff.mp he
    have := List.dropWhile_eq_nil_iff.mp hnil
    exact absurd (by simpa using this d hd) (by simp [hdw])

theorem stripLeadFence_no_tick_all (s : List Char) (h : ∀ c ∈ s, ¬(c = Char.ofNat 96)) :
    stripLeadFence s = s := by
  match s with
  | [] => rfl
  | c :: r => exact stripLeadFence_head c r (h c (List.mem_cons_self _ _))

theorem stripTailFence_no_tick_all (s : List Char) (h : ∀ c ∈ s, ¬(c = Char.ofNat 96)) :
    stripTailFence s = s := by
  rcases hrev : s.reverse.dropWhile isWsChar with _ | ⟨c, r⟩
  · exact stripTailFence_of_rev_nil s hrev
  · refine stripTailFence_of_rev_cons s c r hrev (h c ?_)
    exact List.mem_reverse.mp (mem_dropWhile (by rw [hrev]; exact List.mem_cons_self _ _))

theorem findFenced_none_of_no_tick (s : List Char) (h : ∀ c ∈ s, ¬(c = Char.ofNat 96)) :
    findFenced s = none := by
  unfold findFenced
  rw [splitAtTicks_none s h]

theorem cleanFences_eq (s : List Char) :
    cleanFences s =
      match findFenced (trimWs (stripTailFence (stripLeadFence s))) with
      | some body =>
          if body.isEmpty then trimWs (stripTailFence (stripLeadFence s)) else trimWs body
      | none => trimWs (stripTailFence (stripLeadFence s)) := rfl

theorem cleanFences_plain (pre post B mid : List Char)
    (hB : B = Char.ofNat 123 :: mid ++ [Char.ofNat 125])
    (htk : ∀ c ∈ B, ¬(c = Char.ofNat 96))
    (hpre : proseOk pre = true) (hpost : proseOk post = true) :
    cleanFences (pre ++ B ++ post) =
      pre.dropWhile isWsChar ++ B ++ (post.reverse.dropWhile isWsChar).reverse := by
  have hall : ∀ c ∈ pre ++ B ++ post, ¬(c = Char.ofNat 96) := by
    intro c hc
    rcases List.mem_append.mp hc with hc | hc
    · rcases List.mem_append.mp hc with hc | hc
      · exact (prose_facts hpre c hc).2.2
      · exact htk c hc
    · exact (prose_facts hpost c hc).2.2
  have h1 : stripLeadFence (pre ++ B ++ post) = pre ++ B ++ post :=
    stripLeadFence_no_tick_all _ hall
  have h2 : stripTailFence (pre ++ B ++ post) = pre ++ B ++ post :=
    stripTailFence_no_tick_all _ hall
  have h3 : trimWs (pre ++ B ++ post) =
      pre.dropWhile isWsChar ++ B ++ (post.reverse.dropWhile isWsChar).reverse := by
    rw [hB]
    exact trimWs_decomp pre mid post _ _ (by decide) (by decide)
  have h4 : findFenced (pre.dropWhile isWsChar ++ B ++
      (post.reverse.dropWhile isWsChar).reverse) = none := by
    apply findFenced_none_of_no_tick
    intro c hc
    rcases List.mem_append.mp hc with hc | hc
    · rcases List.mem_append.mp hc with hc | hc
      · exact (prose_facts hpre c (mem_dropWhile hc)).2.2
      · exact htk c hc
    · exact (prose_facts hpost c (mem_trimTail hc)).2.2
  rw [cleanFences_eq, h1, h2, h3, h4]

theorem dropJsonTag_json (r : List Char) :
    dropJsonTag ('j' :: 's' :: 'o' :: 'n' :: r) = r := by
  show (if ('j'.toLower = 'j' && 's'.toLower = 's' && 'o'.toLower = 'o' && 'n'.toLower = 'n')
    then r else ('j' :: 's' :: 'o' :: 'n' :: r)) = r
  rw [if_pos (by decide)]

theorem dropJsonTag_subset (s : List Char) : ∀ c ∈ dropJsonTag s, c ∈ s := by
  match s with
  | [] => intro c hc; exact hc
  | [a] => intro c hc; exact hc
  | [a, b] => intro c hc; exact hc
  | [a, b, e] => intro c hc; exact hc
  | a :: b :: e :: d :: rest =>
    intro c hc
    show c ∈ a :: b :: e :: d :: rest
    have hc2 : c ∈ (if (a.toLower = 'j' && b.toLower = 's' && e.toLower = 'o'
        && d.toLower = 'n') = true then rest else a :: b :: e :: d :: rest) := hc
    by_cases hcond : (a.toLower = 'j' && b.toLower = 's' && e.toLower = 'o'
        && d.toLower = 'n') = true
    · rw [if_pos hcond] at hc2
      simp
      right; right; right; right
      exact hc2
    · rw [if_neg hcond] at hc2
      exact hc2

theorem stage3_cons_ne (c0 : Char) (r : List Char) (h : ¬(c0 = Char.ofNat 123)) :
    stage3 (c0 :: r) = none := by
  unfold stage3
  rw [if_neg]
  intro hcond
  have h1 := hcond.1
  simp at h1
  exact h h1

theorem stage3_obj (X Y : List Char) :
    stage3 ((Char.ofNat 123 :: X ++ [Char.ofNat 125]) ++ Y) =
      stageTry ((Char.ofNat 123 :: X ++ [Char.ofNat 125]) ++ Y) := by
  unfold stage3
  rw [if_pos]
  constructor
  · simp
  · apply List.elem_eq_true_of_mem
    simp

theorem cleanFences_fence1 (post B mid : List Char)
    (hB : B = Char.ofNat 123 :: mid ++ [Char.ofNat 125])
    (htk : ∀ c ∈ B, ¬(c = Char.ofNat 96))
    (hq : post.reverse.dropWhile isWsChar = []) :
    cleanFences (fenceOpen ++ B ++ fenceClose ++ post) = B := by
  rw [show fenceOpen ++ B ++ fenceClose ++ post =
    fenceOpen ++ (B ++ (fenceClose ++ post)) by simp]
  have hcons : B ++ (fenceClose ++ post) =
      Char.ofNat 123 :: (mid ++ ([Char.ofNat 125] ++ (fenceClose ++ post))) := by
    rw [hB]; simp
  have h1 : stripLeadFence (fenceOpen ++ (B ++ (fenceClose ++ post))) =
      B ++ (fenceClose ++ post) := by
    rw [stripLeadFence_fence, hcons, List.dropWhile_cons, if_neg (by decide)]
  have hrev : (B ++ (fenceClose ++ post)).reverse.dropWhile isWsChar =
      Char.ofNat 96 :: Char.ofNat 96 :: Char.ofNat 96 :: ('\n' :: B.reverse) := by
    rw [show (B ++ (fenceClose ++ post)).reverse =
      post.reverse ++ (fenceClose.reverse ++ B.reverse) by simp]
    rw [List.dropWhile_append, hq]
    rw [if_pos (show ([] : List Char).isEmpty = true from rfl)]
    rw [show (fenceClose.reverse ++ B.reverse) =
      Char.ofNat 96 :: Char.ofNat 96 :: Char.ofNat 96 :: '\n' :: B.reverse from rfl]
    rw [List.dropWhile_cons, if_neg (by decide)]
  have h2 : stripTailFence (B ++ (fenceClose ++ post)) = B ++ ['\n'] := by
    rw [stripTailFence_ticks _ _ hrev]
    simp
  have h3 : trimWs (B ++ ['\n']) = B := by
    have h0 := trimWs_decomp [] mid ['\n'] (Char.ofNat 123) (Char.ofNat 125)
      (by decide) (by decide)
    rw [← hB] at h0
    simpa [show List.dropWhile isWsChar ['\n'] = [] from rfl] using h0
  have h4 : findFenced B = none := findFenced_none_of_no_tick B htk
  rw [cleanFences_eq, h1, h2, h3, h4]

theorem cleanFences_fence2 (post B mid : List Char) (d : Char) (q : List Char)
    (hB : B = Char.ofNat 123 :: mid ++ [Char.ofNat 125])
    (htk : ∀ c ∈ B, ¬(c = Char.ofNat 96))
    (hpost : proseOk post = true)
    (hq : post.reverse.dropWhile isWsChar = d :: q) :
    cleanFences (fenceOpen ++ B ++ fenceClose ++ post) =
      B ++ (fenceClose ++ (d :: q).reverse) := by
  have hmemq : ∀ c ∈ d :: q, c ∈ post := by
    intro c hc
    exact List.mem_reverse.mp (mem_dropWhile (by rw [hq]; exact hc))
  have hdt : ¬(d = Char.ofNat 96) :=
    (prose_facts hpost d (hmemq d (List.mem_cons_self _ _))).2.2
  rw [show fenceOpen ++ B ++ fenceClose ++ post =
    fenceOpen ++ (B ++ (fenceClose ++ post)) by simp]
  have hcons : B ++ (fenceClose ++ post) =
      Char.ofNat 123 :: (mid ++ ([Char.ofNat 125] ++ (fenceClose ++ post))) := by
    rw [hB]; simp
  have h1 : stripLeadFence (fenceOpen ++ (B ++ (fenceClose ++ post))) =
      B ++ (fenceClose ++ post) := by
    rw [stripLeadFence_fence, hcons, List.dropWhile_cons, if_neg (by decide)]
  have hrev : (B ++ (fenceClose ++ post)).reverse.dropWhile isWsChar =
      d :: (q ++ (fenceClose.reverse ++ B.reverse)) := by
    rw [show (B ++ (fenceClose ++ post)).reverse =
      post.reverse ++ (fenceClose.reverse ++ B.reverse) by simp]
    rw [List.dropWhile_append, hq, if_neg (by simp)]
    rfl
  have h2 : stripTailFence (B ++ (fenceClose ++ post)) = B ++ (fenceClose ++ post) :=
    stripTailFence_of_rev_cons _ _ _ hrev hdt
  have hinner : ((fenceClose ++ post).reverse.dropWhile isWsChar).reverse =
      fenceClose ++ (d :: q).reverse := by
    rw [show (fenceClose ++ post).reverse = post.reverse ++ fenceClose.reverse by simp]
    rw [List.dropWhile_append, hq, if_neg (by simp)]
    simp
  have h3 : trimWs (B ++ (fenceClose ++ post)) = B ++ (fenceClose ++ (d :: q).reverse) := by
    have h0 := trimWs_decomp [] mid (fenceClose ++ post) (Char.ofNat 123) (Char.ofNat 125)
      (by decide) (by decide)
    rw [← hB, hinner] at h0
    simpa using h0
  have h4 : findFenced (B ++ (fenceClose ++ (d :: q).reverse)) = none := by
    unfold findFenced
    have hsp : splitAtTicks (B ++ (fenceClose ++ (d :: q).reverse)) =
        some (B ++ ['\n'], (d :: q).reverse) := by
      rw [show B ++ (fenceClose ++ (d :: q).reverse) = (B ++ ['\n']) ++
        (Char.ofNat 96 :: Char.ofNat 96 :: Char.ofNat 96 :: (d :: q).reverse) by
          simp [fenceClose]]
      refine splitAtTicks_before (B ++ ['\n']) _ ?_
      intro c hc
      rcases List.mem_append.mp hc with hc | hc
      · exact htk c hc
      · simp at hc
        subst hc
        decide
    rw [hsp]
    show (match splitAtTicks ((dropJsonTag ((d :: q).reverse)).dropWhile isWsChar) with
      | none => none
      | some (body, _) => some body) = none
    rw [splitAtTicks_none _ (fun c hc => by
      have hc2 : c ∈ (d :: q).reverse := dropJsonTag_subset _ c (mem_dropWhile hc)
      exact (prose_facts hpost c (hmemq c (List.mem_reverse.mp hc2))).2.2)]
  rw [cleanFences_eq, h1, h2, h3, h4]

theorem cleanFences_fence3 (p : Char) (ps post B mid : List Char)
    (hB : B = Char.ofNat 123 :: mid ++ [Char.ofNat 125])
    (htk : ∀ c ∈ B, ¬(c = Char.ofNat 96))
    (hpre : proseOk (p :: ps) = true)
    (hq : post.reverse.dropWhile isWsChar = []) :
    cleanFences ((p :: ps) ++ fenceOpen ++ B ++ fenceClose ++ post) =
      (p :: ps).dropWhile isWsChar ++ (fenceOpen ++ B) := by
  have hpt : ¬(p = Char.ofNat 96) :=
    (prose_facts hpre p (List.mem_cons_self _ _)).2.2
  rw [show (p :: ps) ++ fenceOpen ++ B ++ fenceClose ++ post =
    p :: (ps ++ (fenceOpen ++ (B ++ (fenceClose ++ post)))) by simp]
  have h1 : stripLeadFence (p :: (ps ++ (fenceOpen ++ (B ++ (fenceClose ++ post))))) =
      p :: (ps ++ (fenceOpen ++ (B ++ (fenceClose ++ post)))) :=
    stripLeadFence_head _ _ hpt
  have hrev : (p :: (ps ++ (fenceOpen ++ (B ++ (fenceClose ++ post))))).reverse.dropWhile
      isWsChar = Char.ofNat 96 :: Char.ofNat 96 :: Char.ofNat 96 ::
      ('\n' :: (B.reverse ++ (fenceOpen.reverse ++ (ps.reverse ++ [p])))) := by
    rw [show (p :: (ps ++ (fenceOpen ++ (B ++ (fenceClose ++ post))))).reverse =
      post.reverse ++ (fenceClose.reverse ++
        (B.reverse ++ (fenceOpen.reverse ++ (ps.reverse ++ [p])))) by simp]
    rw [List.dropWhile_append, hq]
    rw [if_pos (show ([] : List Char).isEmpty = true from rfl)]
    rw [show fenceClose.reverse ++ (B.reverse ++ (fenceOpen.reverse ++ (ps.reverse ++ [p]))) =
      Char.ofNat 96 :: Char.ofNat 96 :: Char.ofNat 96 ::
        '\n' :: (B.reverse ++ (fenceOpen.reverse ++ (ps.reverse ++ [p]))) from rfl]
    rw [List.dropWhile_cons, if_neg (by decide)]
  have h2 : stripTailFence (p :: (ps ++ (fenceOpen ++ (B ++ (fenceClose ++ post))))) =
      (p :: ps) ++ (fenceOpen ++ (B ++ ['\n'])) := by
    rw [stripTailFence_ticks _ _ hrev]
    simp
  have hm : (Char.ofNat 96 :: ([Char.ofNat 96, Char.ofNat 96, 'j', 's', 'o', 'n', '\n'] ++
      (Char.ofNat 123 :: mid)) ++ [Char.ofNat 125]) = fenceOpen ++ B := by
    rw [hB]
    simp [fenceOpen]
  have h3 : trimWs ((p :: ps) ++ (fenceOpen ++ (B ++ ['\n']))) =
      (p :: ps).dropWhile isWsChar ++ (fenceOpen ++ B) := by
    have h0 := trimWs_decomp (p :: ps)
      ([Char.ofNat 96, Char.ofNat 96, 'j', 's', 'o', 'n', '\n'] ++ (Char.ofNat 123 :: mid))
      ['\n'] (Char.ofNat 96) (Char.ofNat 125) (by decide) (by decide)
    rw [hm] at h0
    rw [show (['\n'] : List Char).reverse = ['\n'] from rfl] at h0
    rw [show List.dropWhile isWsChar ['\n'] = [] from rfl] at h0
    simpa using h0
  have h4 : findFenced ((p :: ps).dropWhile isWsChar ++ (fenceOpen ++ B)) = none := by
    unfold findFenced
    have hsp : splitAtTicks ((p :: ps).dropWhile isWsChar ++ (fenceOpen ++ B)) =
        some ((p :: ps).dropWhile isWsChar, 'j' :: 's' :: 'o' :: 'n' :: '\n' :: B) := by
      rw [show (p :: ps).dropWhile isWsChar ++ (fenceOpen ++ B) =
        (p :: ps).dropWhile isWsChar ++ Char.ofNat 96 :: Char.ofNat 96 :: Char.ofNat 96 ::
          ('j' :: 's' :: 'o' :: 'n' :: '\n' :: B) by simp [fenceOpen]]
      refine splitAtTicks_before _ _ ?_
      intro c hc
      exact (prose_facts hpre c (mem_dropWhile hc)).2.2
    rw [hsp]
    show (match splitAtTicks ((dropJsonTag ('j' :: 's' :: 'o' :: 'n' :: '\n' :: B)).dropWhile
      isWsChar) with
      | none => none
      | some (body, _) => some body) = none
    rw [dropJsonTag_json]
    rw [List.dropWhile_cons, if_pos (by decide)]
    rw [show List.dropWhile isWsChar B = B by
      rw [hB, show Char.ofNat 123 :: mid ++ [Char.ofNat 125] =
        Char.ofNat 123 :: (mid ++ [Char.ofNat 125]) from rfl,
        List.dropWhile_cons, if_neg (by decide)]]
    rw [splitAtTicks_none B htk]
  rw [cleanFences_eq, h1, h2, h3, h4]

theorem cleanFences_fence4 (p : Char) (ps post B mid : List Char) (d : Char) (q : List Char)
    (hB : B = Char.ofNat 123 :: mid ++ [Char.ofNat 125])
    (htk : ∀ c ∈ B, ¬(c = Char.ofNat 96))
    (hpre : proseOk (p :: ps) = true)
    (hpost : proseOk post = true)
    (hq : post.reverse.dropWhile isWsChar = d :: q) :
    cleanFences ((p :: ps) ++ fenceOpen ++ B ++ fenceClose ++ post) = B := by
  have hpt : ¬(p = Char.ofNat 96) :=
    (prose_facts hpre p (List.mem_cons_self _ _)).2.2
  have hmemq : ∀ c ∈ d :: q, c ∈ post := by
    intro c hc
    exact List.mem_reverse.mp (mem_dropWhile (by rw [hq]; exact hc))
  have hdt : ¬(d = Char.ofNat 96) :=
    (prose_facts hpost d (hmemq d (List.mem_cons_self _ _))).2.2
  rw [show (p :: ps) ++ fenceOpen ++ B ++ fenceClose ++ post =
    p :: (ps ++ (fenceOpen ++ (B ++ (fenceClose ++ post)))) by simp]
  have h1 : stripLeadFence (p :: (ps ++ (fenceOpen ++ (B ++ (fenceClose ++ post))))) =
      p :: (ps ++ (fenceOpen ++ (B ++ (fenceClose ++ post)))) :=
    stripLeadFence_head _ _ hpt
  have hrev : (p :: (ps ++ (fenceOpen ++ (B ++ (fenceClose ++ post))))).reverse.dropWhile
      isWsChar = d :: (q ++ (fenceClose.reverse ++
        (B.reverse ++ (fenceOpen.reverse ++ (ps.reverse ++ [p]))))) := by
    rw [show (p :: (ps ++ (fenceOpen ++ (B ++ (fenceClose ++ post))))).reverse =
      post.reverse ++ (fenceClose.reverse ++
        (B.reverse ++ (fenceOpen.reverse ++ (ps.reverse ++ [p])))) by simp]
    rw [List.dropWhile_append, hq, if_neg (by simp)]
    rfl
  have h2 : stripTailFence (p :: (ps ++ (fenceOpen ++ (B ++ (fenceClose ++ post))))) =
      p :: (ps ++ (fenceOpen ++ (B ++ (fenceClose ++ post)))) :=
    stripTailFence_of_rev_cons _ _ _ hrev hdt
  have hm : (Char.ofNat 96 :: ([Char.ofNat 96, Char.ofNat 96, 'j', 's', 'o', 'n', '\n'] ++
      (Char.ofNat 123 :: mid ++ ([Char.ofNat 125] ++ ['\n', Char.ofNat 96, Char.ofNat 96])))
      ++ [Char.ofNat 96]) = fenceOpen ++ (B ++ fenceClose) := by
    rw [hB]
    simp [fenceOpen, fenceClose]
  have h3 : trimWs (p :: (ps ++ (fenceOpen ++ (B ++ (fenceClose ++ post))))) =
      (p :: ps).dropWhile isWsChar ++ ((fenceOpen ++ (B ++ fenceClose)) ++ (d :: q).reverse)
      := by
    have h0 := trimWs_decomp (p :: ps)
      ([Char.ofNat 96, Char.ofNat 96, 'j', 's', 'o', 'n', '\n'] ++
        (Char.ofNat 123 :: mid ++ ([Char.ofNat 125] ++ ['\n', Char.ofNat 96, Char.ofNat 96])))
      post (Char.ofNat 96) (Char.ofNat 96) (by decide) (by decide)
    rw [hm, hq] at h0
    simpa using h0
  have h4 : findFenced ((p :: ps).dropWhile isWsChar ++
      ((fenceOpen ++ (B ++ fenceClose)) ++ (d :: q).reverse)) = some (B ++ ['\n']) := by
    unfold findFenced
    have hsp : splitAtTicks ((p :: ps).dropWhile isWsChar ++
        ((fenceOpen ++ (B ++ fenceClose)) ++ (d :: q).reverse)) =
        some ((p :: ps).dropWhile isWsChar,
          'j' :: 's' :: 'o' :: 'n' :: '\n' :: (B ++ (fenceClose ++ (d :: q).reverse))) := by
      rw [show (p :: ps).dropWhile isWsChar ++
        ((fenceOpen ++ (B ++ fenceClose)) ++ (d :: q).reverse) =
        (p :: ps).dropWhile isWsChar ++ Char.ofNat 96 :: Char.ofNat 96 :: Char.ofNat 96 ::
          ('j' :: 's' :: 'o' :: 'n' :: '\n' :: (B ++ (fenceClose ++ (d :: q).reverse)))
        by simp [fenceOpen]]
      refine splitAtTicks_before _ _ ?_
      intro c hc
      exact (prose_facts hpre c (mem_dropWhile hc)).2.2
    rw [hsp]
    show (match splitAtTicks ((dropJsonTag ('j' :: 's' :: 'o' :: 'n' :: '\n' ::
      (B ++ (fenceClose ++ (d :: q).reverse)))).dropWhile isWsChar) with
      | none => none
      | some (body, _) => some body) = some (B ++ ['\n'])
    rw [dropJsonTag_json]
    rw [List.dropWhile_cons, if_pos (by decide)]
    rw [show List.dropWhile isWsChar (B ++ (fenceClose ++ (d :: q).reverse)) =
      B ++ (fenceClose ++ (d :: q).reverse) by
      rw [hB, show (Char.ofNat 123 :: mid ++ [Char.ofNat 125]) ++
        (fenceClose ++ (d :: q).reverse) =
        Char.ofNat 123 :: (mid ++ ([Char.ofNat 125] ++ (fenceClose ++ (d :: q).reverse)))
        by simp, List.dropWhile_cons, if_neg (by decide)]]
    rw [show B ++ (fenceClose ++ (d :: q).reverse) = (B ++ ['\n']) ++
      (Char.ofNat 96 :: Char.ofNat 96 :: Char.ofNat 96 :: (d :: q).reverse) by
        simp [fenceClose]]
    rw [splitAtTicks_before (B ++ ['\n']) _ (fun c hc => by
      rcases List.mem_append.mp hc with hc | hc
      · exact htk c hc
      · simp at hc
        subst hc
        decide)]
  have hie : (B ++ ['\n']).isEmpty = false := by
    rw [hB]
    rfl
  have h5 : trimWs (B ++ ['\n']) = B := by
    have h0 := trimWs_decomp [] mid ['\n'] (Char.ofNat 123) (Char.ofNat 125)
      (by decide) (by decide)
    rw [← hB] at h0
    rw [show (['\n'] : List Char).reverse = ['\n'] from rfl] at h0
    rw [show List.dropWhile isWsChar ['\n'] = [] from rfl] at h0
    simpa using h0
  rw [cleanFences_eq, h1, h2, h3, h4]
  show (if (B ++ ['\n']).isEmpty = true then _ else trimWs (B ++ ['\n'])) = B
  rw [hie]
  simp only [Bool.false_eq_true, if_false]
  exact h5

theorem stage3_obj0 (X : List Char) :
    stage3 (Char.ofNat 123 :: X ++ [Char.ofNat 125]) =
      stageTry (Char.ofNat 123 :: X ++ [Char.ofNat 125]) := by
  unfold stage3
  rw [if_pos]
  constructor
  · simp
  · apply List.elem_eq_true_of_mem
    simp

theorem extractJsonObject_eq (s : List Char) :
    extractJsonObject s =
      match stage3 (cleanFences s) with
      | some v => some v
      | none =>
        match stage4 (cleanFences s) with
        | some v => some v
        | none => stage5 (cleanFences s) := rfl

theorem stage4_eq (c : List Char) :
    stage4 c = match sliceFL c with
      | some cand => stageTry cand
      | none => none := rfl

theorem extract_assemble1 (s : List Char) (v : JsonVal)
    (h1 : stage3 (cleanFences s) = some v) : extractJsonObject s = some v := by
  rw [extractJsonObject_eq, h1]

theorem extract_assemble2 (s : List Char) (v : JsonVal)
    (h1 : stage3 (cleanFences s) = none) (h2 : stage4 (cleanFences s) = some v) :
    extractJsonObject s = some v := by
  rw [extractJsonObject_eq, h1, h2]

/-! ## Claim theorems: C1 (coverage) and C3 (idempotence) -/

/-- C1, amended: for every candidate model output and every bookmark list
whose titles are all nonempty, every input bookmark is matched — by URL or,
failing that, by title — by at least one entry across the categories of the
normalized mapping.  (The original exactly-once form is refuted by
`c1_counterexample`: a candidate may duplicate the same pair across two
categories, and presence is tested by URL-or-title match, not by exact pair.) -/
theorem c1_coverage_amended (output : JsonVal) (bs : List Bookmark)
    (hB : ∀ b ∈ bs, b.1 ≠ "") :
    ∀ b ∈ bs, matchedIn (normalizeCategorizationOutput output bs) b := by
  intro b hb
  rcases normalize_presence output bs hB b hb with h1 | h2
  · rcases mem_presentUrls.mp h1 with ⟨_, e, he, heq⟩
    exact ⟨e, he, Or.inl heq⟩
  · rcases mem_presentTitles.mp h2 with ⟨_, e, he, heq⟩
    exact ⟨e, he, Or.inr heq⟩

/-- C1 (counterexample): with input bookmarks `[("A","u")]` and a candidate
that lists the same (title, url) pair under two categories, the normalized
mapping contains the pair twice across categories, so the claimed
exactly-once coverage fails. -/
theorem c1_counterexample :
    ¬ exactlyOnceCoverage
      (normalizeCategorizationOutput
        (JsonVal.obj [("C1", JsonVal.obj [("A", JsonVal.str "u")]),
                      ("C2", JsonVal.obj [("A", JsonVal.str "u")])])
        [("A", "u")])
      [("A", "u")] := by
  unfold exactlyOnceCoverage occTotal
  decide

/-- Witness for `c1_coverage_amended` at a concrete input. -/
theorem c1_coverage_amended_witness :
    (∀ b ∈ [(("A" : String), ("u" : String))], b.1 ≠ "") ∧
    matchedIn (normalizeCategorizationOutput JsonVal.null [("A", "u")]) ("A", "u") :=
  ⟨by decide, c1_coverage_amended JsonVal.null [("A", "u")] (by decide) ("A", "u") (by decide)⟩

/-- C3, amended: the normalizer is idempotent — renormalizing its own output
with the same original bookmark list is a no-op — for every candidate and
every bookmark list whose titles are all nonempty.  (The unrestricted claim
is refuted by `c3_counterexample`: two distinct bookmarks sharing an empty
title defeat idempotence, because an empty title is excluded from the
presence set, matching `if (title) presentByTitle.add(title)`.) -/
theorem c3_idempotence_amended (output : JsonVal) (bs : List Bookmark)
    (hB : ∀ b ∈ bs, b.1 ≠ "") :
    normalizeCategorizationOutput (mappingToJson (normalizeCategorizationOutput output bs)) bs
      = normalizeCategorizationOutput output bs :=
  normalize_idempotent output bs hB

/-- C3 (counterexample): with two empty-titled bookmarks carrying different
urls, a second normalization pass rewrites the Other entry and the result
changes, refuting unrestricted idempotence. -/
theorem c3_counterexample :
    normalizeCategorizationOutput
        (mappingToJson (normalizeCategorizationOutput JsonVal.null [("", "u1"), ("", "u2")]))
        [("", "u1"), ("", "u2")]
      ≠ normalizeCategorizationOutput JsonVal.null [("", "u1"), ("", "u2")] := by
  decide

/-- Witness for `c3_idempotence_amended` at a concrete input. -/
theorem c3_idempotence_amended_witness :
    (∀ b ∈ [(("A" : String), ("u" : String)), ("B", "v")], b.1 ≠ "") ∧
    normalizeCategorizationOutput
        (mappingToJson (normalizeCategorizationOutput
          (JsonVal.obj [("Cat", JsonVal.obj [("A", JsonVal.str "u")])])
          [("A", "u"), ("B", "v")]))
        [("A", "u"), ("B", "v")]
      = normalizeCategorizationOutput
          (JsonVal.obj [("Cat", JsonVal.obj [("A", JsonVal.str "u")])])
          [("A", "u"), ("B", "v")] :=
  ⟨by decide, c3_idempotence_amended
    (JsonVal.obj [("Cat", JsonVal.obj [("A", JsonVal.str "u")])])
    [("A", "u"), ("B", "v")] (by decide)⟩

/-! ## Claim theorems: trees (C2, C4, C10) and stacks (C5, C6, C9) -/

/-- C4: snapshotting a root's children, restoring from that snapshot after a
clear, and snapshotting again yields a tree structurally equal (title, url,
child order, depth) to the first snapshot, for every tree satisfying the
store invariant (every bookmark leaf carries a nonempty url — the external
store cannot hold a bookmark without one). -/
theorem c4_snapshot_restore_identity (cs : List BTree) (h : wfList cs = true) :
    snapshotList (restoreList (snapshotList cs)) = snapshotList cs := by
  rw [restore_snapshot_list cs h]

/-- Witness for `c4_snapshot_restore_identity` at a concrete tree. -/
theorem c4_snapshot_restore_identity_witness :
    (wfList [BTree.folder "F" [BTree.leaf "A" "u"], BTree.leaf "B" "v"] = true) ∧
    snapshotList (restoreList (snapshotList
      [BTree.folder "F" [BTree.leaf "A" "u"], BTree.leaf "B" "v"])) =
      snapshotList [BTree.folder "F" [BTree.leaf "A" "u"], BTree.leaf "B" "v"] :=
  ⟨by decide, c4_snapshot_restore_identity
    [BTree.folder "F" [BTree.leaf "A" "u"], BTree.leaf "B" "v"] (by decide)⟩

/-- C2, amended: forward Apply (backup, clear both roots, recreate) followed
by Undo restores the exact pre-Apply tree under both roots (for stores
satisfying the store invariant).  There is, however, no redo path for this
flow: Undo discards the backup, the flow never pushes an undo frame, so the
hook's redo stack is empty and `performRedo` — whatever its frame handler
would do — leaves the tree at the pre-Apply state, not the post-Apply
state.  (The original round-trip claim's redo half is refuted by
`c2_counterexample`.) -/
theorem c2_apply_undo_amended (st : SessionSys) (m : CategoryMapping)
    (hwf : wfStore st.store = true) (hr : st.hookRedo = []) :
    (sysUndo (sysApply m st)).store = st.store ∧
    (sysUndo (sysApply m st)).hookRedo = [] ∧
    ∀ handler, (sysPerformRedo handler (sysUndo (sysApply m st))).store = st.store := by
  have h1 : wfList st.store.bar = true := by
    simp [wfStore] at hwf
    exact hwf.1
  have h2 : wfList st.store.other = true := by
    simp [wfStore] at hwf
    exact hwf.2
  have hstore : (sysUndo (sysApply m st)).store = st.store := by
    show Store.mk (restoreList (snapshotList st.store.bar))
      (restoreList (snapshotList st.store.other)) = st.store
    rw [restore_snapshot_list _ h1, restore_snapshot_list _ h2]
  refine ⟨hstore, hr, ?_⟩
  intro handler
  unfold sysPerformRedo
  rw [show (sysUndo (sysApply m st)).hookRedo = [] from hr]
  exact hstore

/-- C2 (counterexample): starting from a bar holding one bookmark and
applying the mapping Cat ↦ (B, u2), Undo followed by Redo leaves the store
at the pre-Apply tree, not the post-Apply tree: the backup is gone, the
redo stack was never populated (the flow pushes no frames), so
`performRedo` is the guarded no-op.  The handler argument is irrelevant —
it is never reached — and is instantiated with the identity. -/
theorem c2_counterexample :
    (sysPerformRedo (fun _ s => s)
      (sysUndo (sysApply [("Cat", [("B", "u2")])]
        ⟨⟨[BTree.leaf "A" "u1"], []⟩, none, [], []⟩))).store
      ≠ (sysApply [("Cat", [("B", "u2")])]
        ⟨⟨[BTree.leaf "A" "u1"], []⟩, none, [], []⟩).store := by
  intro h
  exact absurd (congrArg (fun s => topTitles s.bar) h) (by decide)

/-- Witness for `c2_apply_undo_amended` at a concrete store and mapping. -/
theorem c2_apply_undo_amended_witness :
    (wfStore ⟨[BTree.leaf "A" "u1"], [BTree.leaf "B" "u2"]⟩ = true) ∧
    (sysUndo (sysApply [("Cat", [("C", "u3")])]
      ⟨⟨[BTree.leaf "A" "u1"], [BTree.leaf "B" "u2"]⟩, none, [], []⟩)).store =
      (⟨⟨[BTree.leaf "A" "u1"], [BTree.leaf "B" "u2"]⟩, none, [], []⟩ : SessionSys).store ∧
    (sysPerformRedo (fun _ s => s) (sysUndo (sysApply [("Cat", [("C", "u3")])]
      ⟨⟨[BTree.leaf "A" "u1"], [BTree.leaf "B" "u2"]⟩, none, [], []⟩))).store =
      (⟨⟨[BTree.leaf "A" "u1"], [BTree.leaf "B" "u2"]⟩, none, [], []⟩ : SessionSys).store :=
  ⟨by decide,
   (c2_apply_undo_amended ⟨⟨[BTree.leaf "A" "u1"], [BTree.leaf "B" "u2"]⟩, none, [], []⟩
     [("Cat", [("C", "u3")])] (by decide) rfl).1,
   (c2_apply_undo_amended ⟨⟨[BTree.leaf "A" "u1"], [BTree.leaf "B" "u2"]⟩, none, [], []⟩
     [("Cat", [("C", "u3")])] (by decide) rfl).2.2 (fun _ s => s)⟩

/-- C10: a successful forward Apply creates every category folder, with all
its bookmarks in entry order, under the bookmarks-bar root '1' only and in
mapping order, while the other-bookmarks root '2' is cleared and left with
no children. -/
theorem c10_apply_under_bar_only (m : CategoryMapping) (s : Store) :
    (applyChanges m s).1.other = [] ∧
    (applyChanges m s).1.bar =
      m.map (fun c => BTree.folder c.1 (c.2.map (fun e => BTree.leaf e.1 e.2))) := by
  constructor
  · rfl
  · show recreateCategories m [] = _
    rw [recreateCategories_eq]
    simp

/-- C6: `addUndoFrame` pushes the new frame onto the front of the undo
stack, keeps at most 50 frames, clears the redo stack entirely, and when
the stack is at capacity the oldest frame is evicted: its id is absent from
the undo stack after any subsequent sequence of undo/redo/add operations
that does not re-add that id (ids are generated fresh). -/
theorem c6_bounded_history (s : URState) (f g : UFrame) (ops : List StackOp)
    (hlen : s.undoStack.length = 50)
    (hnd : (s.undoStack.map UFrame.id).Nodup)
    (hlast : s.undoStack.getLast? = some g)
    (hfid : f.id ≠ g.id)
    (hops : ∀ o ∈ ops, opAddsId o g.id = false) :
    (addUndoFrame f s).undoStack.head? = some f ∧
    (addUndoFrame f s).undoStack.length ≤ 50 ∧
    (addUndoFrame f s).redoStack = [] ∧
    g.id ∉ (runOps (addUndoFrame f s) ops).undoStack.map UFrame.id := by
  have hne : s.undoStack ≠ [] := by intro h; rw [h] at hlen; simp at hlen
  have hg : s.undoStack.getLast hne = g := by
    rwa [List.getLast?_eq_getLast _ hne, Option.some_inj] at hlast
  have hdecomp : s.undoStack.dropLast ++ [g] = s.undoStack := by
    rw [← hg]; exact List.dropLast_append_getLast hne
  have htake : s.undoStack.take 49 = s.undoStack.dropLast := by
    rw [List.dropLast_eq_take, hlen]
  have hgnotin : g.id ∉ (s.undoStack.take 49).map UFrame.id := by
    rw [htake]
    intro hmem
    rw [← hdecomp, List.map_append] at hnd
    exact (List.nodup_append.mp hnd).2.2 hmem (by simp)
  have hstart : g.id ∉ (addUndoFrame f s).undoStack.map UFrame.id := by
    show g.id ∉ (f :: s.undoStack.take 49).map UFrame.id
    intro hmem
    rcases List.mem_map.mp hmem with ⟨x, hx, hxid⟩
    rcases List.mem_cons.mp hx with rfl | hx2
    · exact hfid hxid
    · exact hgnotin (List.mem_map.mpr ⟨x, hx2, hxid⟩)
  refine ⟨rfl, ?_, rfl, ?_⟩
  · show (f :: s.undoStack.take 49).length ≤ 50
    simp [List.length_take]
  · exact (evicted_unreachable g.id ops (addUndoFrame f s) hops hstart
      (by simp [addUndoFrame])).1

/-- Witness for `c6_bounded_history` on a full stack of 50 distinct frames. -/
theorem c6_bounded_history_witness :
    ((((List.range 50).map (fun i => (⟨toString i, "move"⟩ : UFrame)))).length = 50 ∧
     ((((List.range 50).map (fun i => (⟨toString i, "move"⟩ : UFrame)))).map UFrame.id).Nodup ∧
     (((List.range 50).map (fun i => (⟨toString i, "move"⟩ : UFrame)))).getLast?
       = some ⟨"49", "move"⟩) ∧
    (⟨"49", "move"⟩ : UFrame).id ∉
      (runOps (addUndoFrame ⟨"new", "move"⟩
          ⟨(List.range 50).map (fun i => (⟨toString i, "move"⟩ : UFrame)), []⟩)
        [StackOp.undo true, StackOp.redo true, StackOp.add ⟨"x", "move"⟩]).undoStack.map
        UFrame.id :=
  ⟨⟨by decide, by decide, by decide⟩,
   (c6_bounded_history
     ⟨(List.range 50).map (fun i => (⟨toString i, "move"⟩ : UFrame)), []⟩
     ⟨"new", "move"⟩ ⟨"49", "move"⟩
     [StackOp.undo true, StackOp.redo true, StackOp.add ⟨"x", "move"⟩]
     (by decide) (by decide) (by decide) (by decide) (by decide)).2.2.2⟩

/-- C9: if the dispatched handler throws during `performUndo` (or during
`performRedo`), both stacks are left exactly as they were: the failing
frame is neither popped nor transferred — the catch block only logs. -/
theorem c9_error_preserves_stacks (hU hR : UFrame → Except String Unit)
    (s s2 : URState) (fU fR : UFrame) (lU lR : List UFrame) (eU eR : String)
    (h1 : s.undoStack = fU :: lU) (h2 : hU fU = Except.error eU)
    (h3 : s2.redoStack = fR :: lR) (h4 : hR fR = Except.error eR) :
    performUndoE hU s = s ∧ performRedoE hR s2 = s2 := by
  obtain ⟨su, sr⟩ := s
  obtain ⟨su2, sr2⟩ := s2
  simp only at h1 h3
  subst h1
  subst h3
  constructor
  · simp [performUndoE, h2]
  · simp [performRedoE, h4]

/-- Witness for `c9_error_preserves_stacks` with throwing handlers. -/
theorem c9_error_preserves_stacks_witness :
    ((fun _ : UFrame => (Except.error "boom" : Except String Unit)) ⟨"f", "update"⟩
      = Except.error "boom") ∧
    performUndoE (fun _ => Except.error "boom") ⟨[⟨"f", "update"⟩], []⟩
      = ⟨[⟨"f", "update"⟩], []⟩ ∧
    performRedoE (fun _ => Except.error "boom") ⟨[], [⟨"g", "move"⟩]⟩
      = ⟨[], [⟨"g", "move"⟩]⟩ :=
  ⟨rfl,
   (c9_error_preserves_stacks (fun _ => Except.error "boom") (fun _ => Except.error "boom")
     ⟨[⟨"f", "update"⟩], []⟩ ⟨[], [⟨"g", "move"⟩]⟩ ⟨"f", "update"⟩ ⟨"g", "move"⟩
     [] [] "boom" "boom" rfl rfl rfl rfl).1,
   (c9_error_preserves_stacks (fun _ => Except.error "boom") (fun _ => Except.error "boom")
     ⟨[⟨"f", "update"⟩], []⟩ ⟨[], [⟨"g", "move"⟩]⟩ ⟨"f", "update"⟩ ⟨"g", "move"⟩
     [] [] "boom" "boom" rfl rfl rfl rfl).2⟩

/-- C5: the code has no in-flight guard, so a second `performUndo` arriving
while the first awaits its handler is not rejected: both capture the same
top frame and state, and after both functional updates commit, the single
frame has been undone twice — the undo stack lost it and the redo stack
holds it twice.  The claimed rejection semantics would instead leave the
redo stack with one copy. -/
theorem c5_overlap_no_rejection :
    overlappedPerformUndo ⟨[⟨"f1", "reorganize"⟩], []⟩ =
      ⟨[], [⟨"f1", "reorganize"⟩, ⟨"f1", "reorganize"⟩]⟩ ∧
    (URState.mk [] [⟨"f1", "reorganize"⟩, ⟨"f1", "reorganize"⟩] ≠
      URState.mk [] [⟨"f1", "reorganize"⟩]) :=
  ⟨rfl, by decide⟩

/-! ## Claim theorems: the sanitizer (C7, C8) -/

/-- C7, amended: the sanitizer round-trip holds for structured values whose
strings are free of JSON-significant characters (quotes, backslashes, commas,
braces, brackets, backticks, control characters): for any such object value,
rendered with or without trailing commas before each closing bracket, wrapped
or not in a ```json fence, and surrounded by arbitrary prose free of braces
and backticks, `extractJsonObject` recovers exactly the value.  The
unrestricted claim is false: a string *inside* the value may contain `,\x7d`,
which the trailing-comma regex corrupts before parsing. -/
theorem c7_roundtrip (tc fence : Bool) (ms : List (String × JsonVal))
    (hplain : plainVal (JsonVal.obj ms) = true)
    (pre post : List Char) (hpre : proseOk pre = true) (hpost : proseOk post = true) :
    extractJsonObject (embedText fence pre post (renderVal tc (JsonVal.obj ms))) =
      some (JsonVal.obj ms) := by
  have hX : renderVal tc (JsonVal.obj ms) = Char.ofNat 123 ::
      (renderMembers tc ms ++ (if tc && !ms.isEmpty then [','] else [])) ++ [Char.ofNat 125] :=
    rfl
  have htk : ∀ c ∈ renderVal tc (JsonVal.obj ms), ¬(c = Char.ofNat 96) :=
    renderVal_no_tick tc _ hplain
  have hst : stageTry (renderVal tc (JsonVal.obj ms)) = some (JsonVal.obj ms) := by
    have h0 := stageTry_render_obj tc ms hplain []
    rw [List.append_nil] at h0
    rw [h0]
    rw [if_pos (show (skipWs (stripTCRun false [])).isEmpty = true from rfl)]
  have hs3some : stage3 (renderVal tc (JsonVal.obj ms)) = some (JsonVal.obj ms) := by
    have h0 := stage3_obj0 (renderMembers tc ms ++ (if tc && !ms.isEmpty then [','] else []))
    rw [← hX] at h0
    rw [h0, hst]
  have hs3app : ∀ (Y : List Char), stage3 (renderVal tc (JsonVal.obj ms) ++ Y) =
      stageTry (renderVal tc (JsonVal.obj ms) ++ Y) := by
    intro Y
    have h0 := stage3_obj (renderMembers tc ms ++ (if tc && !ms.isEmpty then [','] else [])) Y
    rw [← hX] at h0
    exact h0
  have hstN : ∀ (Y : List Char) (e : Char), e ∈ Y → isWsChar e = false →
      stageTry (renderVal tc (JsonVal.obj ms) ++ Y) = none := by
    intro Y e he hew
    rw [stageTry_render_obj tc ms hplain Y, skipWs_stripTC_ne Y e he hew]
    simp
  have hs4gen : ∀ (a b : List Char), (∀ c ∈ a, ¬(c = Char.ofNat 123)) →
      (∀ c ∈ b, ¬(c = Char.ofNat 125)) →
      stage4 ((a ++ renderVal tc (JsonVal.obj ms)) ++ b) = some (JsonVal.obj ms) := by
    intro a b ha hb
    have h0 := sliceFL_decomp a (renderMembers tc ms ++
      (if tc && !ms.isEmpty then [','] else [])) b ha hb
    rw [← hX] at h0
    rw [stage4_eq, h0]
    exact hst
  match fence with
  | false =>
    rw [show embedText false pre post (renderVal tc (JsonVal.obj ms)) =
      pre ++ renderVal tc (JsonVal.obj ms) ++ post from rfl]
    have hclean0 := cleanFences_plain pre post (renderVal tc (JsonVal.obj ms))
      (renderMembers tc ms ++ (if tc && !ms.isEmpty then [','] else []))
      hX htk hpre hpost
    rcases hp : pre.dropWhile isWsChar with _ | ⟨p1, ps1⟩
    · rcases hq : post.reverse.dropWhile isWsChar with _ | ⟨d, q⟩
      · rw [hp, hq] at hclean0
        simp only [List.nil_append, List.reverse_nil, List.append_nil] at hclean0
        refine extract_assemble1 _ _ ?_
        rw [hclean0]
        exact hs3some
      · rw [hp, hq] at hclean0
        simp only [List.nil_append] at hclean0
        have hmemq : ∀ c ∈ d :: q, c ∈ post := by
          intro c hc
          exact List.mem_reverse.mp (mem_dropWhile (by rw [hq]; exact hc))
        have hdw : isWsChar d = false := dropWhile_head_false hq
        refine extract_assemble2 _ _ ?_ ?_
        · rw [hclean0, hs3app]
          exact hstN _ d (by simp) hdw
        · rw [hclean0]
          rw [show renderVal tc (JsonVal.obj ms) ++ (d :: q).reverse =
            (([] : List Char) ++ renderVal tc (JsonVal.obj ms)) ++ (d :: q).reverse by simp]
          refine hs4gen [] _ (by intro c hc; simp at hc) ?_
          intro c hc
          exact (prose_facts hpost c (hmemq c (List.mem_reverse.mp hc))).2.1
    · have hp1 : p1 ∈ pre := mem_dropWhile (by rw [hp]; exact List.mem_cons_self _ _)
      have hpre1 : ∀ c ∈ p1 :: ps1, c ∈ pre := by
        intro c hc
        exact mem_dropWhile (by rw [hp]; exact hc)
      have hmempost : ∀ c ∈ (post.reverse.dropWhile isWsChar).reverse, c ∈ post := by
        intro c hc
        exact mem_trimTail hc
      rw [hp] at hclean0
      refine extract_assemble2 _ _ ?_ ?_
      · rw [hclean0]
        rw [show ((p1 :: ps1) ++ renderVal tc (JsonVal.obj ms)) ++
          (post.reverse.dropWhile isWsChar).reverse =
          p1 :: ((ps1 ++ renderVal tc (JsonVal.obj ms)) ++
            (post.reverse.dropWhile isWsChar).reverse) by simp]
        exact stage3_cons_ne p1 _ (prose_facts hpre p1 hp1).1
      · rw [hclean0]
        refine hs4gen (p1 :: ps1) _ ?_ ?_
        · intro c hc
          exact (prose_facts hpre c (hpre1 c hc)).1
        · intro c hc
          exact (prose_facts hpost c (hmempost c hc)).2.1
  | true =>
    rw [show embedText true pre post (renderVal tc (JsonVal.obj ms)) =
      pre ++ fenceOpen ++ renderVal tc (JsonVal.obj ms) ++ fenceClose ++ post from rfl]
    match pre, hpre with
    | [], _ =>
      rw [show ([] : List Char) ++ fenceOpen ++ renderVal tc (JsonVal.obj ms) ++
        fenceClose ++ post =
        fenceOpen ++ renderVal tc (JsonVal.obj ms) ++ fenceClose ++ post by simp]
      rcases hq : post.reverse.dropWhile isWsChar with _ | ⟨d, q⟩
      · have hclean := cleanFences_fence1 post (renderVal tc (JsonVal.obj ms))
          (renderMembers tc ms ++ (if tc && !ms.isEmpty then [','] else [])) hX htk hq
        refine extract_assemble1 _ _ ?_
        rw [hclean]
        exact hs3some
      · have hclean := cleanFences_fence2 post (renderVal tc (JsonVal.obj ms))
          (renderMembers tc ms ++ (if tc && !ms.isEmpty then [','] else [])) d q
          hX htk hpost hq
        have hmemq : ∀ c ∈ d :: q, c ∈ post := by
          intro c hc
          exact List.mem_reverse.mp (mem_dropWhile (by rw [hq]; exact hc))
        refine extract_assemble2 _ _ ?_ ?_
        · rw [hclean, hs3app]
          exact hstN _ (Char.ofNat 96) (by simp [fenceClose]) (by decide)
        · rw [hclean]
          rw [show renderVal tc (JsonVal.obj ms) ++ (fenceClose ++ (d :: q).reverse) =
            (([] : List Char) ++ renderVal tc (JsonVal.obj ms)) ++
              (fenceClose ++ (d :: q).reverse) by simp]
          refine hs4gen [] _ (by intro c hc; simp at hc) ?_
          intro c hc
          rcases List.mem_append.mp hc with hc | hc
          · simp [fenceClose] at hc
            rcases hc with rfl | rfl | rfl <;> decide
          · exact (prose_facts hpost c (hmemq c (List.mem_reverse.mp hc))).2.1
    | p :: ps, hpre =>
      rcases hq : post.reverse.dropWhile isWsChar with _ | ⟨d, q⟩
      · have hclean := cleanFences_fence3 p ps post (renderVal tc (JsonVal.obj ms))
          (renderMembers tc ms ++ (if tc && !ms.isEmpty then [','] else [])) hX htk hpre hq
        have hpre1 : ∀ c ∈ (p :: ps).dropWhile isWsChar, c ∈ p :: ps := by
          intro c hc
          exact mem_dropWhile hc
        refine extract_assemble2 _ _ ?_ ?_
        · rw [hclean]
          rcases hp2 : (p :: ps).dropWhile isWsChar with _ | ⟨p1, ps1⟩
          · rw [show ([] : List Char) ++ (fenceOpen ++ renderVal tc (JsonVal.obj ms)) =
              Char.ofNat 96 :: (Char.ofNat 96 :: Char.ofNat 96 :: 'j' :: 's' :: 'o' :: 'n' ::
                '\n' :: renderVal tc (JsonVal.obj ms)) by simp [fenceOpen]]
            exact stage3_cons_ne _ _ (by decide)
          · rw [show (p1 :: ps1) ++ (fenceOpen ++ renderVal tc (JsonVal.obj ms)) =
              p1 :: (ps1 ++ (fenceOpen ++ renderVal tc (JsonVal.obj ms))) by simp]
            refine stage3_cons_ne p1 _ ?_
            have : p1 ∈ p :: ps := hpre1 p1 (by rw [hp2]; exact List.mem_cons_self _ _)
            exact (prose_facts hpre p1 this).1
        · rw [hclean]
          rw [show (p :: ps).dropWhile isWsChar ++ (fenceOpen ++ renderVal tc (JsonVal.obj ms))
            = (((p :: ps).dropWhile isWsChar ++ fenceOpen) ++ renderVal tc (JsonVal.obj ms))
              ++ [] by simp]
          refine hs4gen _ [] ?_ (by intro c hc; simp at hc)
          intro c hc
          rcases List.mem_append.mp hc with hc | hc
          · exact (prose_facts hpre c (hpre1 c hc)).1
          · simp [fenceOpen] at hc
            rcases hc with rfl | rfl | rfl | rfl | rfl | rfl | rfl | rfl <;> decide
      · have hclean := cleanFences_fence4 p ps post (renderVal tc (JsonVal.obj ms))
          (renderMembers tc ms ++ (if tc && !ms.isEmpty then [','] else [])) d q
          hX htk hpre hpost hq
        refine extract_assemble1 _ _ ?_
        rw [hclean]
        exact hs3some

/-- Witness for `c7_roundtrip`: a two-key object rendered with trailing
commas inside a ```json fence between prose, recovered exactly. -/
theorem c7_roundtrip_witness :
    plainVal (JsonVal.obj [("a", JsonVal.str "x"), ("b", JsonVal.null)]) = true ∧
    proseOk "Here is the result: ".data = true ∧
    proseOk " Done.".data = true ∧
    extractJsonObject (embedText true "Here is the result: ".data " Done.".data
      (renderVal true (JsonVal.obj [("a", JsonVal.str "x"), ("b", JsonVal.null)]))) =
      some (JsonVal.obj [("a", JsonVal.str "x"), ("b", JsonVal.null)]) :=
  ⟨by decide, by decide, by decide,
   c7_roundtrip true true _ (by decide) _ _ (by decide) (by decide)⟩

/-- C7 (counterexample): the well-formed value `\x7b"a": ",\x7d"\x7d` rendered with
no fences, no prose and no trailing commas — the sanitizer's trailing-comma
pass rewrites the `,\x7d` inside the string literal, so extraction succeeds but
returns `\x7b"a": "\x7d"\x7d`, which is not deep-equal to the input value. -/
theorem c7_counterexample :
    extractJsonObject (renderVal false (JsonVal.obj [("a", JsonVal.str ",\x7d")])) =
      some (JsonVal.obj [("a", JsonVal.str "\x7d")]) ∧
    ¬(extractJsonObject (renderVal false (JsonVal.obj [("a", JsonVal.str ",\x7d")])) =
      some (JsonVal.obj [("a", JsonVal.str ",\x7d")])) := by
  refine ⟨rfl, fun h => ?_⟩
  exact absurd (congrArg probeC7 h) (by decide)

/-- C8, amended: whenever the object-head stage and the first-`\x7b`-to-last-`\x7d`
slice stage both fail on the cleaned text, `extractJsonObject` is exactly the
character scan stage; the scan's span runs from the first top-level opening
brace to the LAST position where the nesting depth returns to zero — not the
first such position, as the spec says — and the stage parses exactly that
slice. -/
theorem c8_amended (s : List Char)
    (h3 : stage3 (cleanFences s) = none) (h4 : stage4 (cleanFences s) = none) :
    extractJsonObject s = stage5 (cleanFences s) ∧
    codeScanSpan (cleanFences s) =
      (match firstOpenIdx (cleanFences s) 0, (zeroReturns (cleanFences s) 0 0).getLast? with
       | some i, some j => some (i, j)
       | _, _ => none) ∧
    stage5 (cleanFences s) =
      (match codeScanSpan (cleanFences s) with
       | some (i, j) => stageTry (((cleanFences s).drop i).take (j + 1 - i))
       | _ => none) := by
  refine ⟨?_, ?_, ?_⟩
  · unfold extractJsonObject
    rw [h3, h4]
  · unfold codeScanSpan
    rw [scanBal_char]
    match firstOpenIdx (cleanFences s) 0, (zeroReturns (cleanFences s) 0 0).getLast? with
    | some i, some j => rfl
    | some i, none => rfl
    | none, some j => rfl
    | none, none => rfl
  · unfold stage5 codeScanSpan
    match scanBal (cleanFences s) with
    | (some i, some j) => rfl
    | (some i, none) => rfl
    | (none, some j) => rfl
    | (none, none) => rfl

/-- Witness for `c8_amended`: the same two-region input satisfies both
failure hypotheses, and the theorem computes the extraction there. -/
theorem c8_amended_witness :
    (stage3 (cleanFences ("x\x7b\"a\":\"1\"\x7d \x7b\"b\":\"2\"\x7d".data)) = none ∧
     stage4 (cleanFences ("x\x7b\"a\":\"1\"\x7d \x7b\"b\":\"2\"\x7d".data)) = none) ∧
    extractJsonObject ("x\x7b\"a\":\"1\"\x7d \x7b\"b\":\"2\"\x7d".data) =
      stage5 (cleanFences ("x\x7b\"a\":\"1\"\x7d \x7b\"b\":\"2\"\x7d".data)) :=
  ⟨⟨rfl, rfl⟩,
   (c8_amended ("x\x7b\"a\":\"1\"\x7d \x7b\"b\":\"2\"\x7d".data) rfl rfl).1⟩

/-- C8 (counterexample): on the cleaned text of `x\x7b"a":"1"\x7d \x7b"b":"2"\x7d`
— prose followed by two separate balanced top-level regions — the earlier
stages fail, and the code's scan span pairs the first top-level opening brace
(index 1) with the last depth-zero return (index 19), while the spec's "first
top-level balanced region" ends at index 9. -/
theorem c8_counterexample :
    (stage3 (cleanFences ("x\x7b\"a\":\"1\"\x7d \x7b\"b\":\"2\"\x7d".data)) = none ∧
     stage4 (cleanFences ("x\x7b\"a\":\"1\"\x7d \x7b\"b\":\"2\"\x7d".data)) = none) ∧
    codeScanSpan (cleanFences ("x\x7b\"a\":\"1\"\x7d \x7b\"b\":\"2\"\x7d".data)) ≠
      specFirstSpan (cleanFences ("x\x7b\"a\":\"1\"\x7d \x7b\"b\":\"2\"\x7d".data)) :=
  ⟨⟨rfl, rfl⟩, by decide⟩

end BookmarkOrg
